import Mathlib

/-!
XV-11 stream parser: frame synchronizer and message decoder

A shallow embedding of `src/parser.cpp` / `src/parser.h`.

Modelling conventions.
* `unsigned char` is `Fin 256`; the accumulation buffer `m_buf` is a `List byte`.
* Every indexed access (`m_buf[i]`, `m_laser[i]`, `text_buf[i]`) is bounds checked in the
  model: an access outside the container, which C++ leaves undefined, makes the enclosing
  function return `none`.
* `int` / `long` values are mathematical integers; the two narrowing casts of the source
  (`static_cast<int32_t>`, `static_cast<int16_t>`) are explicit two's-complement wraps.
  Buffer positions are assumed to fit an `int`.
* `double` fields of `odom_data` are exact rationals.
* Printing to `cout` / `cerr` has no effect on the parser and is left out.
-/

namespace XV11

/-- An `unsigned char`. -/
abbrev byte := Fin 256

/-- `const static unsigned char HEADER[]` (parser.cpp line 26). -/
def HEADER : List byte := [0x01, 0x02, 0x03, 0x04]

/-- `const static unsigned char FOOTER[]` (parser.cpp line 27). -/
def FOOTER : List byte := [0x40, 0x30, 0x20, 0x10]

/-! ### `enum MSG_PKT` -/

def HEAD : Nat := 0x00
def TYPE : Nat := 0x04
def SEQUENCE : Nat := 0x06
def TIMESTAMP : Nat := 0x08
def STR_LEN : Nat := 0x0c
def STR_DATA : Nat := 0x10
def LSR_INDEX : Nat := 0x10
def LSR_DATA : Nat := 0x14

/-! ### `enum MSG_TYPES` -/

def POSITION : Int := 0x01
def LASER : Int := 0x05
def TEXT : Int := 0x11

/-! ### `enum VERBOSITY_LVL` -/

def VERB_DEBUG : Nat := 1 <<< 0
def VERB_TEXT : Nat := 1 <<< 1
def VERB_LASER : Nat := 1 <<< 2
def VERB_MAP : Nat := 1 <<< 3
def VERB_ODOM : Nat := 1 <<< 4

/-- The record `struct laser_unit`. -/
structure laser_unit where
  x : Int
  y : Int
  valid : Bool
deriving DecidableEq, Repr

/-- The record `struct odom_data`; both fields are `double` in the source. -/
structure odom_data where
  count : ℚ
  speed : ℚ
deriving DecidableEq, Repr

/-- The data members of `class parser` that the synchronizer and decoder touch.
`m_verbose` is the bit pattern of the `int` mask. -/
structure parser where
  m_buf : List byte
  m_laser : Fin 360 → laser_unit
  left : odom_data
  right : odom_data
  m_verbose : Nat

/-- The test `m_verbose & mask` of the source, as a Boolean. -/
def verb (p : parser) (mask : Nat) : Bool := (p.m_verbose &&& mask) != 0

/-- The cast `static_cast<int32_t>` applied to a bit pattern. -/
def int32_cast (n : Nat) : Int :=
  if n % 2 ^ 32 < 2 ^ 31 then ((n % 2 ^ 32 : Nat) : Int) else ((n % 2 ^ 32 : Nat) : Int) - 2 ^ 32

/-- The cast `static_cast<int16_t>` applied to a bit pattern. -/
def int16_cast (n : Nat) : Int :=
  if n % 2 ^ 16 < 2 ^ 15 then ((n % 2 ^ 16 : Nat) : Int) else ((n % 2 ^ 16 : Nat) : Int) - 2 ^ 16

/-- The four-step comparison loop shared by `is_header` and `is_footer`:
`for (i = 0; i < 4; i++) if (m_buf[start + i] != M[i]) return false; return true`. -/
def marker_loop (buf M : List byte) (start : Nat) : Bool :=
  (List.range 4).all fun i => buf[start + i]? == M[i]?

/-- The method `parser::is_header` (parser.cpp lines 55-67). -/
def is_header (p : parser) (pos : Int) : Bool :=
  if pos - 3 ≥ 0 ∧ pos < (p.m_buf.length : Int) then
    marker_loop p.m_buf HEADER (pos - 3).toNat
  else
    false

/-- The method `parser::is_footer` (parser.cpp lines 69-81). -/
def is_footer (p : parser) (pos : Int) : Bool :=
  if pos - 3 ≥ 0 ∧ pos < (p.m_buf.length : Int) then
    marker_loop p.m_buf FOOTER (pos - 3).toNat
  else
    false

/-- The method `parser::construct_long` (parser.cpp lines 83-86). The four bytes are
promoted to `int`, shifted and or-ed; the model forms the 32-bit pattern of that value
and `static_cast<int32_t>` reads it as a two's-complement number. -/
def construct_long (p : parser) (pos : Nat) : Option Int := do
  let b0 ← p.m_buf[pos]?
  let b1 ← p.m_buf[pos + 1]?
  let b2 ← p.m_buf[pos + 2]?
  let b3 ← p.m_buf[pos + 3]?
  pure (int32_cast (b0.val ||| (b1.val <<< 8) ||| (b2.val <<< 16) ||| (b3.val <<< 24)))

/-- The method `parser::construct_int` (parser.cpp lines 88-91). -/
def construct_int (p : parser) (pos : Nat) : Option Int := do
  let b0 ← p.m_buf[pos]?
  let b1 ← p.m_buf[pos + 1]?
  pure (int16_cast (b0.val ||| (b1.val <<< 8)))

/-- The method `parser::processOdom` (parser.cpp lines 135-156). -/
def processOdom (p : parser) : Option parser :=
  if verb p (VERB_ODOM ||| VERB_DEBUG) then
    if verb p VERB_ODOM then do
      let lc ← construct_long p 0x0c
      let rc ← construct_long p 0x10
      let ls ← construct_int p 0x14
      let rs ← construct_int p 0x16
      pure { p with left := { count := lc, speed := ls * 0.001 },
                    right := { count := rc, speed := rs * 0.001 } }
    else
      some p
  else
    some p

/-- A bounds-checked write `arr[i] = v` into a heap array held as a list. -/
def arr_set {α : Type} (arr : List α) (i : Int) (v : α) : Option (List α) :=
  if 0 ≤ i ∧ i < (arr.length : Int) then some (arr.set i.toNat v) else none

/-- A bounds-checked read `arr[i]` from a heap array held as a list. -/
def arr_get {α : Type} (arr : List α) (i : Int) : Option α :=
  if 0 ≤ i then arr[i.toNat]? else none

/-- One iteration of the copy loop of `processText` (line 167):
`text_buf[i] = m_buf[STR_DATA + i]`. -/
def text_step (p : parser) (text_buf : List byte) (i : Nat) : Option (List byte) := do
  let b ← p.m_buf[STR_DATA + i]?
  arr_set text_buf (i : Int) b

/-- Lines 159-169 of `parser::processText`: the allocation of `text_buf`, the copy loop
and the terminating null byte. The fresh array is shown zero filled; every cell is
written before the function looks at it. -/
def text_buf_build (p : parser) : Option (Int × List byte) := do
  let string_length ← construct_long p STR_LEN
  if string_length + 1 < 0 then none
  else
    let text_buf : List byte := List.replicate (string_length + 1).toNat 0
    let text_buf ← (List.range string_length.toNat).foldlM (text_step p) text_buf
    let text_buf ← arr_set text_buf string_length 0
    pure (string_length, text_buf)

/-- The method `parser::processText` (parser.cpp lines 158-179). The result is the
content of `text_buf` when it is released; the parser itself is not written. -/
def processText (p : parser) : Option (List byte) := do
  let (string_length, text_buf) ← text_buf_build p
  if verb p VERB_TEXT then
    let _last ← arr_get text_buf (string_length - 1)
    pure text_buf
  else
    pure text_buf

/-- One iteration of the loop of `processLaser` (lines 189-192). -/
def laser_step (index : Int) (p : parser) (i : Nat) : Option parser :=
  if h : 0 ≤ index + (i : Int) ∧ index + (i : Int) < 360 then do
    let x ← construct_int p (LSR_DATA + 4 * i)
    let y ← construct_int p (LSR_DATA + 4 * i + 2)
    pure { p with m_laser := Function.update p.m_laser
                    ⟨(index + (i : Int)).toNat, by omega⟩
                    { x := x, y := y, valid := decide (|x| < 512) && decide (|y| < 512) } }
  else
    none

/-- The method `parser::processLaser` (parser.cpp lines 181-203). -/
def processLaser (p : parser) : Option parser := do
  let index ← construct_long p LSR_INDEX
  (List.range 90).foldlM (laser_step index) p

/-- The method `parser::processMsg` (parser.cpp lines 93-133). -/
def processMsg (p : parser) : Option parser :=
  if !is_header p 3 && verb p VERB_DEBUG then
    some p
  else if !is_footer p ((p.m_buf.length : Int) - 1) && verb p VERB_DEBUG then
    some p
  else do
    let _timestamp ← construct_long p TIMESTAMP
    let _seq ← construct_int p SEQUENCE
    let type ← construct_int p TYPE
    if type = POSITION then processOdom p
    else if type = TEXT then (processText p).map fun _ => p
    else if type = LASER then processLaser p
    else some p

/-- What one call of `update` did: `decoded` is the buffer content on which `processMsg`
was invoked (line 45), if it was; `state` is the parser on return, `none` when the decoder
left the bounds of a container. -/
structure update_result where
  decoded : Option (List byte)
  state : Option parser

/-- The method `parser::update` (parser.cpp lines 41-53). -/
def update (p : parser) (c : byte) : update_result :=
  let p1 : parser := { p with m_buf := p.m_buf ++ [c] }
  if is_footer p1 ((p1.m_buf.length : Int) - 1) then
    { decoded := some p1.m_buf,
      state := (processMsg p1).map fun q => { q with m_buf := [] } }
  else if is_header p1 ((p1.m_buf.length : Int) - 1) then
    { decoded := none, state := some { p1 with m_buf := [] ++ HEADER } }
  else
    { decoded := none, state := some p1 }

/-- Feeding a byte stream to `update` one byte at a time. The first component lists the
frames handed to `processMsg`, in order; the second is the final parser, `none` once a
decode has left the bounds of a container (the run stops there). -/
def feed (p : parser) : List byte → List (List byte) × Option parser
  | [] => ([], some p)
  | c :: cs =>
    match (update p c).state with
    | none => ((update p c).decoded.toList, none)
    | some q => ((update p c).decoded.toList ++ (feed q cs).1, (feed q cs).2)

/-- A marker `M` (four bytes) sits at offset `k` of `s`. -/
def marker_at (M s : List byte) (k : Nat) : Prop := (s.drop k).take 4 = M

instance (M s : List byte) (k : Nat) : Decidable (marker_at M s k) := by
  unfold marker_at; infer_instance

/-- A parser with an empty buffer, a cleared table and verbosity 0. -/
def parser0 : parser :=
  { m_buf := [], m_laser := fun _ => ⟨0, 0, false⟩, left := ⟨0, 0⟩, right := ⟨0, 0⟩,
    m_verbose := 0 }

/-! ### Predicates of the statements, loop summaries and sample inputs -/

/-- The byte list `s` has at least four bytes and its last four are the marker `M`. -/
def ends_with (M s : List byte) : Prop := 4 ≤ s.length ∧ s.drop (s.length - 4) = M

instance (M s : List byte) : Decidable (ends_with M s) := by
  unfold ends_with; infer_instance

/-- A 28-byte odometry frame short of its last byte: header, type 0x01, sequence 7,
timestamp 9, counts 5 and -2, raw speeds 1000 and -3, then 40 30 20. -/
def odom_frame_init : List byte :=
  [0x01, 0x02, 0x03, 0x04, 0x01, 0x00, 0x07, 0x00, 0x09, 0x00, 0x00, 0x00,
   0x05, 0x00, 0x00, 0x00, 0xfe, 0xff, 0xff, 0xff, 0xe8, 0x03, 0xfd, 0xff,
   0x40, 0x30, 0x20]

/-- The table entry that iteration `i` of the laser loop writes. -/
def laser_entry (p : parser) (i : Nat) : laser_unit :=
  let x := (construct_int p (LSR_DATA + 4 * i)).getD 0
  let y := (construct_int p (LSR_DATA + 4 * i + 2)).getD 0
  { x := x, y := y, valid := decide (|x| < 512) && decide (|y| < 512) }

/-- The laser table after the first `n` iterations of the loop of `processLaser`. -/
def laser_after (p : parser) (index : Int) (n : Nat) : Fin 360 → laser_unit :=
  fun j => if index ≤ (j.val : Int) ∧ (j.val : Int) < index + n
    then laser_entry p ((j.val : Int) - index).toNat else p.m_laser j

/-- A 384-byte laser frame with start index 0 whose point 0 is (100, 100) and whose
point 1 is (600, 0); the remaining 88 points are (0, 0). -/
def laser_frame : List byte :=
  [0x01, 0x02, 0x03, 0x04, 0x05, 0x00, 0x07, 0x00, 0x09, 0x00, 0x00, 0x00,
   0x00, 0x00, 0x00, 0x00, 0x00, 0x00, 0x00, 0x00,
   0x64, 0x00, 0x64, 0x00, 0x58, 0x02, 0x00, 0x00] ++ List.replicate 352 0x00 ++ FOOTER

/-- A text frame carrying the five bytes h e l l o. -/
def hello_frame : List byte :=
  [0x01, 0x02, 0x03, 0x04, 0x11, 0x00, 0x07, 0x00, 0x09, 0x00, 0x00, 0x00,
   0x05, 0x00, 0x00, 0x00, 0x68, 0x65, 0x6c, 0x6c, 0x6f, 0x40, 0x30, 0x20, 0x10]

/-- The 28-byte odometry frame: header, type 0x01, sequence 7, timestamp 9, counts 5 and
-2, raw speeds 1000 and -3, footer. -/
def odom_frame : List byte := odom_frame_init ++ [0x10]

/-- An odometry frame whose first four bytes are 00 00 00 00 instead of the header. -/
def bad_odom_frame : List byte :=
  [0x00, 0x00, 0x00, 0x00, 0x01, 0x00, 0x07, 0x00, 0x09, 0x00, 0x00, 0x00,
   0x05, 0x00, 0x00, 0x00, 0xfe, 0xff, 0xff, 0xff, 0xe8, 0x03, 0xfd, 0xff,
   0x40, 0x30, 0x20, 0x10]

/-- A 384-byte laser frame with start index 0 whose first four bytes are 00 00 00 00
instead of the header; every point is (257, 257). -/
def bad_laser_frame : List byte :=
  [0x00, 0x00, 0x00, 0x00, 0x05, 0x00, 0x07, 0x00, 0x09, 0x00, 0x00, 0x00,
   0x00, 0x00, 0x00, 0x00, 0x00, 0x00, 0x00, 0x00] ++ List.replicate 360 0x01 ++ FOOTER

/-- Offset `h` marks where the buffer starts inside the bytes `t` fed so far: no header
marker starts after `h`, and `h` is 0 or the start of a header marker. -/
def synced (t : List byte) (h : Nat) : Prop :=
  h ≤ t.length ∧ (∀ k, marker_at HEADER t k → k ≤ h) ∧ (h = 0 ∨ marker_at HEADER t h)

/-- A stream with a true header, an accidental header match inside the payload, and the
footer at its end. -/
def resync_stream : List byte :=
  [0x55, 0x01, 0x02, 0x03, 0x04, 0x05, 0x00, 0x01, 0x02, 0x03, 0x04, 0x09, 0x0a,
   0x40, 0x30, 0x20, 0x10]

/-- The header marker occurs in `buf` at most at offset 0. -/
def header_only_at_start (buf : List byte) : Prop := ∀ k, marker_at HEADER buf k → k = 0

/-- Two frames back to back, the second one reached after a burst of noise and an
accidental header match. -/
def two_frame_stream : List byte :=
  odom_frame ++ [0x33, 0x01, 0x02, 0x03, 0x04, 0x22] ++ hello_frame

/-- A text frame whose length field is 0. -/
def empty_text_frame : List byte :=
  [0x01, 0x02, 0x03, 0x04, 0x11, 0x00, 0x07, 0x00, 0x09, 0x00, 0x00, 0x00,
   0x00, 0x00, 0x00, 0x00, 0x40, 0x30, 0x20, 0x10]

/-- A frame with the header marker, type code 0x02 and the footer marker. -/
def unknown_type_frame : List byte :=
  [0x01, 0x02, 0x03, 0x04, 0x02, 0x00, 0x07, 0x00, 0x09, 0x00, 0x00, 0x00,
   0x40, 0x30, 0x20, 0x10]

/-- A 384-byte laser frame whose start index is 271; every point is (257, 257). -/
def overrun_laser_frame : List byte :=
  [0x01, 0x02, 0x03, 0x04, 0x05, 0x00, 0x07, 0x00, 0x09, 0x00, 0x00, 0x00,
   0x00, 0x00, 0x00, 0x00, 0x0f, 0x01, 0x00, 0x00] ++ List.replicate 360 0x01 ++ FOOTER

/-- The frame `hello_frame` with its length field raised from 5 to 9, four more than
the bytes between offset 0x10 and the footer. -/
def overlong_text_frame : List byte :=
  [0x01, 0x02, 0x03, 0x04, 0x11, 0x00, 0x07, 0x00, 0x09, 0x00, 0x00, 0x00,
   0x09, 0x00, 0x00, 0x00, 0x68, 0x65, 0x6c, 0x6c, 0x6f, 0x40, 0x30, 0x20, 0x10]

/-- The frame `hello_frame` with its length field raised from 5 to 10, one more than
the bytes between offset 0x10 and the end of the frame. -/
def overrun_text_frame : List byte :=
  [0x01, 0x02, 0x03, 0x04, 0x11, 0x00, 0x07, 0x00, 0x09, 0x00, 0x00, 0x00,
   0x0a, 0x00, 0x00, 0x00, 0x68, 0x65, 0x6c, 0x6c, 0x6f, 0x40, 0x30, 0x20, 0x10]

/-- The footer marker occurs nowhere in `buf`. -/
def footer_free (buf : List byte) : Prop := ∀ k, ¬ marker_at FOOTER buf k

/-- A stream that closes the frame `odom_frame`, then meets noise and a header marker. -/
def frame_then_resync : List byte := odom_frame ++ [0x33, 0x01, 0x02, 0x03, 0x04, 0x22]

/-- The number of positions i of `s` at which a footer marker ends: 3 ≤ i and the bytes
i-3..i are 40 30 20 10. -/
def footer_count (s : List byte) : Nat :=
  (List.range s.length).countP fun i => decide (3 ≤ i ∧ marker_at FOOTER s (i - 3))

/-- Offset `h` is where the buffer starts inside the bytes `t` fed so far: the start of
the stream, the start of a header marker, or the end of a footer marker. -/
def buffer_start (t : List byte) (h : Nat) : Prop :=
  h ≤ t.length ∧ (h = 0 ∨ marker_at HEADER t h ∨ (4 ≤ h ∧ marker_at FOOTER t (h - 4)))

/-- The parser with which the caller makes its next call after `update p c`. When
`update` returned, it is the parser it returned. When the decode left the bounds of a
container, `update` still goes on to line 46 and clears the buffer; what the sensor
fields and the mask hold after such a decode is not fixed by the language, so they are
taken from `junk p`, an arbitrary parser. -/
def update_on (junk : parser → parser) (p : parser) (c : byte) : parser :=
  match (update p c).state with
  | some q => q
  | none => { junk p with m_buf := [] }

/-- Feeding a byte stream to `update` one byte at a time, going on after every call.
The first component lists the frames handed to `processMsg`, in order; the second is the
parser after the last byte. -/
def feed_on (junk : parser → parser) (p : parser) : List byte → List (List byte) × parser
  | [] => ([], p)
  | c :: cs =>
    ((update p c).decoded.toList ++ (feed_on junk (update_on junk p c) cs).1,
      (feed_on junk (update_on junk p c) cs).2)

/-- A bare footer marker followed by the frame `odom_frame`: the first footer closes a
4-byte frame whose decode reads beyond it. -/
def footer_then_frame : List byte := FOOTER ++ odom_frame

/-! ### Markers -/

theorem marker_loop_iff (buf M : List byte) (start : Nat) (hM : M.length = 4) :
    marker_loop buf M start = true ↔ marker_at M buf start := by
  unfold marker_loop marker_at
  rw [List.all_eq_true]
  constructor
  · intro h
    apply List.ext_getElem?
    intro n
    by_cases hn : n < 4
    · have := h n (List.mem_range.mpr hn)
      simp only [beq_iff_eq] at this
      rw [List.getElem?_take_of_lt hn, List.getElem?_drop]
      exact this
    · rw [List.getElem?_eq_none (by simp; omega), List.getElem?_eq_none (by omega)]
  · intro h i hi
    have hi4 : i < 4 := List.mem_range.mp hi
    simp only [beq_iff_eq]
    rw [← h, List.getElem?_take_of_lt hi4, List.getElem?_drop]

theorem marker_at_last (M s : List byte) (h4 : 4 ≤ s.length) :
    marker_at M s (s.length - 4) ↔ s.drop (s.length - 4) = M := by
  unfold marker_at
  rw [List.take_of_length_le (by simp; omega)]

theorem is_footer_last (p : parser) :
    is_footer p ((p.m_buf.length : Int) - 1) = true ↔ ends_with FOOTER p.m_buf := by
  unfold is_footer ends_with
  by_cases h4 : 4 ≤ p.m_buf.length
  · have e : ((p.m_buf.length : Int) - 1 - 3).toNat = p.m_buf.length - 4 := by omega
    rw [if_pos (by omega), e, marker_loop_iff _ _ _ (by decide), marker_at_last _ _ h4]
    simp [h4]
  · rw [if_neg (by omega)]
    simp [h4]

theorem is_header_last (p : parser) :
    is_header p ((p.m_buf.length : Int) - 1) = true ↔ ends_with HEADER p.m_buf := by
  unfold is_header ends_with
  by_cases h4 : 4 ≤ p.m_buf.length
  · have e : ((p.m_buf.length : Int) - 1 - 3).toNat = p.m_buf.length - 4 := by omega
    rw [if_pos (by omega), e, marker_loop_iff _ _ _ (by decide), marker_at_last _ _ h4]
    simp [h4]
  · rw [if_neg (by omega)]
    simp [h4]

theorem ends_with_exclusive (s : List byte) (hf : ends_with FOOTER s) : ¬ ends_with HEADER s := by
  intro hh
  have := hf.2.symm.trans hh.2
  exact absurd this (by decide)

theorem update_of_footer (p : parser) (c : byte) (h : ends_with FOOTER (p.m_buf ++ [c])) :
    update p c =
      { decoded := some (p.m_buf ++ [c]),
        state := (processMsg { p with m_buf := p.m_buf ++ [c] }).map
          fun q => { q with m_buf := [] } } := by
  have hf : is_footer { p with m_buf := p.m_buf ++ [c] }
      ((({ p with m_buf := p.m_buf ++ [c] } : parser).m_buf.length : Int) - 1) = true :=
    (is_footer_last _).mpr h
  unfold update
  simp only [hf, if_true]

theorem update_of_header (p : parser) (c : byte) (h : ends_with HEADER (p.m_buf ++ [c])) :
    update p c = { decoded := none, state := some { p with m_buf := HEADER } } := by
  have hf : is_footer { p with m_buf := p.m_buf ++ [c] }
      ((({ p with m_buf := p.m_buf ++ [c] } : parser).m_buf.length : Int) - 1) = false := by
    rw [Bool.eq_false_iff]
    intro hf
    exact ends_with_exclusive _ ((is_footer_last _).mp hf) h
  have hh : is_header { p with m_buf := p.m_buf ++ [c] }
      ((({ p with m_buf := p.m_buf ++ [c] } : parser).m_buf.length : Int) - 1) = true :=
    (is_header_last _).mpr h
  unfold update
  simp only [hf, hh, if_true, Bool.false_eq_true, if_false, List.nil_append]

theorem update_of_neither (p : parser) (c : byte) (hf : ¬ ends_with FOOTER (p.m_buf ++ [c]))
    (hh : ¬ ends_with HEADER (p.m_buf ++ [c])) :
    update p c = { decoded := none, state := some { p with m_buf := p.m_buf ++ [c] } } := by
  have hf2 : is_footer { p with m_buf := p.m_buf ++ [c] }
      ((({ p with m_buf := p.m_buf ++ [c] } : parser).m_buf.length : Int) - 1) = false := by
    rw [Bool.eq_false_iff]
    intro h
    exact hf ((is_footer_last _).mp h)
  have hh2 : is_header { p with m_buf := p.m_buf ++ [c] }
      ((({ p with m_buf := p.m_buf ++ [c] } : parser).m_buf.length : Int) - 1) = false := by
    rw [Bool.eq_false_iff]
    intro h
    exact hh ((is_header_last _).mp h)
  unfold update
  simp only [hf2, hh2, Bool.false_eq_true, if_false]

/-- C1. Footer step of `update`: when the buffer followed by the new byte has at least four
bytes and ends with 40 30 20 10, `update` invokes `processMsg` on exactly that byte
sequence, its return state is the state `processMsg` returns with the buffer cleared, and
so the buffer is empty whenever `update` returns. -/
theorem C1_footer_step (p : parser) (B : List byte) (b : byte) (hB : p.m_buf = B)
    (h4 : 4 ≤ (B ++ [b]).length) (hlast : (B ++ [b]).drop ((B ++ [b]).length - 4) = FOOTER) :
    (update p b).decoded = some (B ++ [b]) ∧
    (update p b).state =
      (processMsg { p with m_buf := B ++ [b] }).map (fun q => { q with m_buf := [] }) ∧
    (∀ q, (update p b).state = some q → q.m_buf = []) := by
  subst hB
  rw [update_of_footer p b ⟨h4, hlast⟩]
  refine ⟨rfl, rfl, ?_⟩
  intro q hq
  simp only [Option.map_eq_some'] at hq
  obtain ⟨r, _, rfl⟩ := hq
  rfl

theorem C1_footer_step_witness :
    (update { parser0 with m_buf := odom_frame_init, m_verbose := VERB_ODOM } 0x10).decoded
        = some (odom_frame_init ++ [0x10]) ∧
    (update { parser0 with m_buf := odom_frame_init, m_verbose := VERB_ODOM } 0x10).state
        = (processMsg { ({ parser0 with m_buf := odom_frame_init, m_verbose := VERB_ODOM } :
              parser) with m_buf := odom_frame_init ++ [0x10] }).map
            (fun q => { q with m_buf := [] }) ∧
    (∀ q, (update { parser0 with m_buf := odom_frame_init, m_verbose := VERB_ODOM } 0x10).state
        = some q → q.m_buf = []) :=
  C1_footer_step { parser0 with m_buf := odom_frame_init, m_verbose := VERB_ODOM }
    odom_frame_init 0x10 rfl (by decide) (by decide)

/-- C2. Header resync step of `update`: when the buffer followed by the new byte has at
least four bytes and ends with 01 02 03 04, `update` invokes no decode and returns the
same parser (odometry, laser table, verbosity) with the buffer equal to 01 02 03 04. -/
theorem C2_header_resync (p : parser) (B : List byte) (b : byte) (hB : p.m_buf = B)
    (h4 : 4 ≤ (B ++ [b]).length) (hlast : (B ++ [b]).drop ((B ++ [b]).length - 4) = HEADER) :
    (update p b).decoded = none ∧
    (update p b).state = some { p with m_buf := [0x01, 0x02, 0x03, 0x04] } ∧
    (∀ q, (update p b).state = some q →
      q.m_buf = [0x01, 0x02, 0x03, 0x04] ∧ q.left = p.left ∧ q.right = p.right ∧
      q.m_laser = p.m_laser) := by
  subst hB
  rw [update_of_header p b ⟨h4, hlast⟩]
  refine ⟨rfl, rfl, ?_⟩
  intro q hq
  simp only [Option.some.injEq] at hq
  subst hq
  exact ⟨rfl, rfl, rfl, rfl⟩

theorem C2_header_resync_witness :
    (update { parser0 with m_buf := [0x09, 0x40, 0x30, 0x01, 0x02, 0x03] } 0x04).decoded = none ∧
    (update { parser0 with m_buf := [0x09, 0x40, 0x30, 0x01, 0x02, 0x03] } 0x04).state
      = some { ({ parser0 with m_buf := [0x09, 0x40, 0x30, 0x01, 0x02, 0x03] } : parser) with
                m_buf := [0x01, 0x02, 0x03, 0x04] } ∧
    (∀ q, (update { parser0 with m_buf := [0x09, 0x40, 0x30, 0x01, 0x02, 0x03] } 0x04).state
        = some q →
      q.m_buf = [0x01, 0x02, 0x03, 0x04] ∧
      q.left = ({ parser0 with m_buf := [0x09, 0x40, 0x30, 0x01, 0x02, 0x03] } : parser).left ∧
      q.right = ({ parser0 with m_buf := [0x09, 0x40, 0x30, 0x01, 0x02, 0x03] } : parser).right ∧
      q.m_laser
        = ({ parser0 with m_buf := [0x09, 0x40, 0x30, 0x01, 0x02, 0x03] } : parser).m_laser) :=
  C2_header_resync { parser0 with m_buf := [0x09, 0x40, 0x30, 0x01, 0x02, 0x03] }
    [0x09, 0x40, 0x30, 0x01, 0x02, 0x03] 0x04 rfl (by decide) (by decide)

/-! ### The numeric primitives -/

theorem or_shift_bytes2 (a0 a1 : Nat) (h0 : a0 < 256) :
    a0 ||| (a1 <<< 8) = a0 + 256 * a1 := by
  rw [Nat.shiftLeft_eq, Nat.or_comm, Nat.mul_comm a1 (2 ^ 8),
    ← Nat.mul_add_lt_is_or (by simpa using h0) a1]
  omega

theorem or_shift_bytes4 (a0 a1 a2 a3 : Nat) (h0 : a0 < 256) (h1 : a1 < 256) (h2 : a2 < 256) :
    a0 ||| (a1 <<< 8) ||| (a2 <<< 16) ||| (a3 <<< 24)
      = a0 + 256 * a1 + 65536 * a2 + 16777216 * a3 := by
  rw [or_shift_bytes2 a0 a1 h0]
  have e2 : (a0 + 256 * a1) ||| (a2 <<< 16) = a0 + 256 * a1 + 65536 * a2 := by
    rw [Nat.shiftLeft_eq, Nat.or_comm, Nat.mul_comm a2 (2 ^ 16),
      ← Nat.mul_add_lt_is_or (by norm_num; omega) a2]
    omega
  rw [e2, Nat.shiftLeft_eq, Nat.or_comm, Nat.mul_comm a3 (2 ^ 24),
      ← Nat.mul_add_lt_is_or (by norm_num; omega) a3]
  omega

theorem construct_long_eq (p : parser) (pos : Nat) (b0 b1 b2 b3 : byte)
    (h0 : p.m_buf[pos]? = some b0) (h1 : p.m_buf[pos + 1]? = some b1)
    (h2 : p.m_buf[pos + 2]? = some b2) (h3 : p.m_buf[pos + 3]? = some b3) :
    construct_long p pos
      = some (int32_cast (b0.val + 256 * b1.val + 65536 * b2.val + 16777216 * b3.val)) := by
  unfold construct_long
  rw [h0, h1, h2, h3]
  simp only [Option.bind_eq_bind, Option.some_bind, Option.pure_def]
  rw [or_shift_bytes4 _ _ _ _ b0.isLt b1.isLt b2.isLt]

theorem construct_int_eq (p : parser) (pos : Nat) (b0 b1 : byte)
    (h0 : p.m_buf[pos]? = some b0) (h1 : p.m_buf[pos + 1]? = some b1) :
    construct_int p pos = some (int16_cast (b0.val + 256 * b1.val)) := by
  unfold construct_int
  rw [h0, h1]
  simp only [Option.bind_eq_bind, Option.some_bind, Option.pure_def]
  rw [or_shift_bytes2 _ _ b0.isLt]

/-- C8. For buffer bytes b0..b3 at positions pos..pos+3, `construct_long pos` returns the
signed 32-bit little-endian value: the unique integer in [-2^31, 2^31) congruent to
b0 + 2^8 b1 + 2^16 b2 + 2^24 b3 modulo 2^32; it is negative exactly when b3 ≥ 0x80. -/
theorem C8_construct_long (p : parser) (pos : Nat) (b0 b1 b2 b3 : byte)
    (h0 : p.m_buf[pos]? = some b0) (h1 : p.m_buf[pos + 1]? = some b1)
    (h2 : p.m_buf[pos + 2]? = some b2) (h3 : p.m_buf[pos + 3]? = some b3) :
    ∃ v : Int, construct_long p pos = some v ∧
      -2 ^ 31 ≤ v ∧ v < 2 ^ 31 ∧
      v % 2 ^ 32 = ((b0.val : Int) + 2 ^ 8 * b1.val + 2 ^ 16 * b2.val + 2 ^ 24 * b3.val) % 2 ^ 32 ∧
      (∀ w : Int, -2 ^ 31 ≤ w → w < 2 ^ 31 →
        w % 2 ^ 32 = ((b0.val : Int) + 2 ^ 8 * b1.val + 2 ^ 16 * b2.val + 2 ^ 24 * b3.val) % 2 ^ 32 →
        w = v) ∧
      (v < 0 ↔ 0x80 ≤ b3.val) := by
  refine ⟨_, construct_long_eq p pos b0 b1 b2 b3 h0 h1 h2 h3, ?_⟩
  have l0 := b0.isLt
  have l1 := b1.isLt
  have l2 := b2.isLt
  have l3 := b3.isLt
  unfold int32_cast
  norm_num
  split_ifs <;> refine ⟨?_, ?_, ?_, ?_, ?_⟩ <;> omega

theorem C8_construct_long_witness :
    ∃ v : Int, construct_long { parser0 with m_buf := [0x00, 0xfe, 0xff, 0xff, 0xff] } 1 = some v ∧
      -2 ^ 31 ≤ v ∧ v < 2 ^ 31 ∧
      v % 2 ^ 32 = (((0xfe : byte).val : Int) + 2 ^ 8 * (0xff : byte).val
        + 2 ^ 16 * (0xff : byte).val + 2 ^ 24 * (0xff : byte).val) % 2 ^ 32 ∧
      (∀ w : Int, -2 ^ 31 ≤ w → w < 2 ^ 31 →
        w % 2 ^ 32 = (((0xfe : byte).val : Int) + 2 ^ 8 * (0xff : byte).val
          + 2 ^ 16 * (0xff : byte).val + 2 ^ 24 * (0xff : byte).val) % 2 ^ 32 →
        w = v) ∧
      (v < 0 ↔ 0x80 ≤ (0xff : byte).val) :=
  C8_construct_long { parser0 with m_buf := [0x00, 0xfe, 0xff, 0xff, 0xff] } 1
    0xfe 0xff 0xff 0xff rfl rfl rfl rfl

/-- C9. For buffer bytes b0, b1 at positions pos, pos+1, `construct_int pos` returns the
signed 16-bit little-endian value: the unique integer in [-32768, 32767] congruent to
b0 + 256 b1 modulo 65536. -/
theorem C9_construct_int (p : parser) (pos : Nat) (b0 b1 : byte)
    (h0 : p.m_buf[pos]? = some b0) (h1 : p.m_buf[pos + 1]? = some b1) :
    ∃ v : Int, construct_int p pos = some v ∧
      -32768 ≤ v ∧ v ≤ 32767 ∧
      v % 65536 = ((b0.val : Int) + 256 * b1.val) % 65536 ∧
      (∀ w : Int, -32768 ≤ w → w ≤ 32767 →
        w % 65536 = ((b0.val : Int) + 256 * b1.val) % 65536 → w = v) := by
  refine ⟨_, construct_int_eq p pos b0 b1 h0 h1, ?_⟩
  have l0 := b0.isLt
  have l1 := b1.isLt
  unfold int16_cast
  norm_num
  split_ifs <;> refine ⟨?_, ?_, ?_, ?_⟩ <;> omega

theorem C9_construct_int_witness :
    ∃ v : Int, construct_int { parser0 with m_buf := [0x00, 0x18, 0xfc] } 1 = some v ∧
      -32768 ≤ v ∧ v ≤ 32767 ∧
      v % 65536 = (((0x18 : byte).val : Int) + 256 * (0xfc : byte).val) % 65536 ∧
      (∀ w : Int, -32768 ≤ w → w ≤ 32767 →
        w % 65536 = (((0x18 : byte).val : Int) + 256 * (0xfc : byte).val) % 65536 → w = v) :=
  C9_construct_int { parser0 with m_buf := [0x00, 0x18, 0xfc] } 1 0x18 0xfc rfl rfl

/-! ### The decoder -/

theorem construct_long_some (p : parser) (pos : Nat) (h : pos + 4 ≤ p.m_buf.length) :
    ∃ v, construct_long p pos = some v := by
  have e0 : p.m_buf[pos]? = some (p.m_buf[pos]) := List.getElem?_eq_getElem (by omega)
  have e1 : p.m_buf[pos + 1]? = some (p.m_buf[pos + 1]) := List.getElem?_eq_getElem (by omega)
  have e2 : p.m_buf[pos + 2]? = some (p.m_buf[pos + 2]) := List.getElem?_eq_getElem (by omega)
  have e3 : p.m_buf[pos + 3]? = some (p.m_buf[pos + 3]) := List.getElem?_eq_getElem (by omega)
  exact ⟨_, construct_long_eq p pos _ _ _ _ e0 e1 e2 e3⟩

theorem construct_int_some (p : parser) (pos : Nat) (h : pos + 2 ≤ p.m_buf.length) :
    ∃ v, construct_int p pos = some v := by
  have e0 : p.m_buf[pos]? = some (p.m_buf[pos]) := List.getElem?_eq_getElem (by omega)
  have e1 : p.m_buf[pos + 1]? = some (p.m_buf[pos + 1]) := List.getElem?_eq_getElem (by omega)
  exact ⟨_, construct_int_eq p pos _ _ e0 e1⟩

theorem is_header_three (p : parser) : is_header p 3 = true ↔ p.m_buf.take 4 = HEADER := by
  unfold is_header
  by_cases h4 : 4 ≤ p.m_buf.length
  · rw [if_pos (by omega)]
    have e : ((3 : Int) - 3).toNat = 0 := by decide
    rw [e, marker_loop_iff _ _ _ (by decide)]
    unfold marker_at
    simp
  · rw [if_neg (by omega)]
    constructor
    · intro h; cases h
    · intro h
      have := congrArg List.length h
      simp [HEADER] at this
      omega

/-- Past its two marker checks `processMsg` reads the three header fields and dispatches
on the type code. -/
theorem processMsg_dispatch (p : parser) (t : Int)
    (hh : is_header p 3 = true ∨ verb p VERB_DEBUG = false)
    (hf : is_footer p ((p.m_buf.length : Int) - 1) = true ∨ verb p VERB_DEBUG = false)
    (hlen : 12 ≤ p.m_buf.length) (ht : construct_int p TYPE = some t) :
    processMsg p =
      if t = POSITION then processOdom p
      else if t = TEXT then (processText p).map fun _ => p
      else if t = LASER then processLaser p
      else some p := by
  obtain ⟨ts, hts⟩ := construct_long_some p TIMESTAMP (by simp [TIMESTAMP]; omega)
  obtain ⟨sq, hsq⟩ := construct_int_some p SEQUENCE (by simp [SEQUENCE]; omega)
  have c1 : (!is_header p 3 && verb p VERB_DEBUG) = false := by
    rcases hh with h | h <;> simp [h]
  have c2 : (!is_footer p ((p.m_buf.length : Int) - 1) && verb p VERB_DEBUG) = false := by
    rcases hf with h | h <;> simp [h]
  unfold processMsg
  rw [c1, c2, hts, hsq, ht]
  simp

theorem construct_int_buf (p q : parser) (h : q.m_buf = p.m_buf) (pos : Nat) :
    construct_int q pos = construct_int p pos := by
  unfold construct_int; rw [h]

theorem laser_loop_eq (p : parser) (index : Int) (n : Nat) (h0 : 0 ≤ index)
    (hn : index + n ≤ 360) (hlen : LSR_DATA + 4 * n ≤ p.m_buf.length) :
    (List.range n).foldlM (laser_step index) p
      = some { p with m_laser := laser_after p index n } := by
  induction n with
  | zero =>
    simp only [List.range_zero, List.foldlM_nil, Option.pure_def, Option.some.injEq]
    cases p
    simp only [parser.mk.injEq, true_and, and_true]
    funext j
    simp only [laser_after]
    rw [if_neg (by push_cast; omega)]
  | succ n ih =>
    have ih2 := ih (by push_cast at hn; omega) (by omega)
    rw [List.range_succ, List.foldlM_append, ih2]
    simp only [Option.bind_eq_bind, Option.some_bind, List.foldlM_cons, List.foldlM_nil]
    obtain ⟨x, hx⟩ := construct_int_some p (LSR_DATA + 4 * n) (by omega)
    obtain ⟨y, hy⟩ := construct_int_some p (LSR_DATA + 4 * n + 2) (by omega)
    have hin : 0 ≤ index + (n : Int) ∧ index + (n : Int) < 360 := by
      push_cast at hn; omega
    unfold laser_step
    rw [dif_pos hin]
    have hq := construct_int_buf p { p with m_laser := laser_after p index n } rfl
    rw [hq, hq, hx, hy]
    simp only [Option.bind_eq_bind, Option.some_bind, Option.pure_def, Option.some.injEq,
      parser.mk.injEq, true_and, and_true]
    funext j
    by_cases hj : j = ⟨(index + (n : Int)).toNat, by omega⟩
    · subst hj
      rw [Function.update_same]
      simp only [laser_after]
      rw [if_pos (by push_cast; omega)]
      have e : (((index + (n : Int)).toNat : Nat) : Int) - index = (n : Int) := by omega
      simp only [e, Int.toNat_ofNat, laser_entry, hx, hy, Option.getD_some]
    · rw [Function.update_noteq hj]
      have hj2 : (j.val : Int) ≠ index + n := by
        intro hc
        apply hj
        apply Fin.ext
        simp only
        omega
      simp only [laser_after]
      by_cases hr : index ≤ (j.val : Int) ∧ (j.val : Int) < index + n
      · rw [if_pos hr, if_pos (by push_cast; omega)]
      · rw [if_neg hr, if_neg (by push_cast; omega)]

/-- The effect of `processLaser` on a buffer long enough for 90 points with a start
index inside 0..270: exactly the entries index..index+89 are rewritten. -/
theorem processLaser_eq (p : parser) (index : Int) (hi : construct_long p LSR_INDEX = some index)
    (h0 : 0 ≤ index) (h270 : index ≤ 270) (hlen : 380 ≤ p.m_buf.length) :
    processLaser p = some { p with m_laser := laser_after p index 90 } := by
  unfold processLaser
  rw [hi]
  simp only [Option.bind_eq_bind, Option.some_bind]
  exact laser_loop_eq p index 90 h0 (by omega) (by simp [LSR_DATA]; omega)

/-- C5. Laser decode: for a frame of at least 384 bytes that begins with the header marker,
has type code 0x05 and a start index within 0..270, `processLaser` returns, and for every
i in 0..89 table entry index+i holds x = the signed 16-bit value at offset 0x14+4i,
y = the signed 16-bit value at offset 0x14+4i+2 and valid = true exactly when |x| < 512 and
|y| < 512. `processMsg` reaches this decode, with the same result, whenever the frame ends
with the footer marker or debug verbosity is off. -/
theorem C5_laser_decode (p : parser) (index : Int) (hlen : 384 ≤ p.m_buf.length)
    (hhead : p.m_buf.take 4 = HEADER) (htype : construct_int p TYPE = some 0x05)
    (hidx : construct_long p 0x10 = some index) (h0 : 0 ≤ index) (h270 : index ≤ 270) :
    ∃ q, processLaser p = some q ∧
      (verb p VERB_DEBUG = false ∨ ends_with FOOTER p.m_buf → processMsg p = some q) ∧
      ∀ i : Nat, i < 90 → ∃ (x y : Int) (hj : (index + (i : Int)).toNat < 360),
        construct_int p (0x14 + 4 * i) = some x ∧
        construct_int p (0x14 + 4 * i + 2) = some y ∧
        (q.m_laser ⟨(index + (i : Int)).toNat, hj⟩).x = x ∧
        (q.m_laser ⟨(index + (i : Int)).toNat, hj⟩).y = y ∧
        ((q.m_laser ⟨(index + (i : Int)).toNat, hj⟩).valid = true ↔ |x| < 512 ∧ |y| < 512) := by
  have hL := processLaser_eq p index hidx h0 h270 (by omega)
  refine ⟨_, hL, ?_, ?_⟩
  · intro hv
    have hd := processMsg_dispatch p 0x05 (Or.inl ((is_header_three p).mpr hhead))
      (by
        rcases hv with h | h
        · exact Or.inr h
        · exact Or.inl ((is_footer_last p).mpr h))
      (by omega) htype
    rw [hd, hL]
    simp [POSITION, TEXT, LASER]
  · intro i hi
    obtain ⟨x, hx⟩ := construct_int_some p (0x14 + 4 * i) (by omega)
    obtain ⟨y, hy⟩ := construct_int_some p (0x14 + 4 * i + 2) (by omega)
    refine ⟨x, y, by omega, hx, hy, ?_⟩
    have e : (((index + (i : Int)).toNat : Nat) : Int) - index = (i : Int) := by omega
    simp only [laser_after]
    rw [if_pos (by constructor <;> omega)]
    simp only [e, Int.toNat_ofNat, laser_entry, LSR_DATA, hx, hy, Option.getD_some,
      Bool.and_eq_true, decide_eq_true_eq, and_self]

set_option maxRecDepth 100000 in
theorem C5_laser_decode_witness :
    ∃ q, processLaser { parser0 with m_buf := laser_frame } = some q ∧
      (verb { parser0 with m_buf := laser_frame } VERB_DEBUG = false ∨
          ends_with FOOTER ({ parser0 with m_buf := laser_frame } : parser).m_buf →
        processMsg { parser0 with m_buf := laser_frame } = some q) ∧
      ∀ i : Nat, i < 90 → ∃ (x y : Int) (hj : ((0 : Int) + (i : Int)).toNat < 360),
        construct_int { parser0 with m_buf := laser_frame } (0x14 + 4 * i) = some x ∧
        construct_int { parser0 with m_buf := laser_frame } (0x14 + 4 * i + 2) = some y ∧
        (q.m_laser ⟨((0 : Int) + (i : Int)).toNat, hj⟩).x = x ∧
        (q.m_laser ⟨((0 : Int) + (i : Int)).toNat, hj⟩).y = y ∧
        ((q.m_laser ⟨((0 : Int) + (i : Int)).toNat, hj⟩).valid = true ↔ |x| < 512 ∧ |y| < 512) :=
  C5_laser_decode { parser0 with m_buf := laser_frame } 0 (by decide) (by decide) (by decide)
    (by decide) (by decide) (by decide)

set_option maxRecDepth 100000 in
/-- The example of the specification: point 0 = (100, 100) is stored valid, point 1 =
(600, 0) is stored not valid. -/
theorem laser_frame_points :
    (processMsg { parser0 with m_buf := laser_frame }).map
        (fun q => (q.m_laser 0, q.m_laser 1, q.m_laser 2))
      = some (⟨100, 100, true⟩, ⟨600, 0, false⟩, ⟨0, 0, true⟩) := by
  decide

theorem text_loop_eq (p : parser) (n k : Nat) (hk : k ≤ n) (hlen : STR_DATA + n ≤ p.m_buf.length) :
    (List.range k).foldlM (text_step p) (List.replicate (n + 1) 0)
      = some ((p.m_buf.drop STR_DATA).take k ++ List.replicate (n + 1 - k) 0) := by
  induction k with
  | zero => simp
  | succ k ih =>
    rw [List.range_succ, List.foldlM_append, ih (by omega)]
    simp only [Option.bind_eq_bind, Option.some_bind, List.foldlM_cons, List.foldlM_nil]
    have hb : p.m_buf[STR_DATA + k]? = some (p.m_buf[STR_DATA + k]) :=
      List.getElem?_eq_getElem (by omega)
    have hl : ((p.m_buf.drop STR_DATA).take k).length = k := by
      simp only [List.length_take, List.length_drop]; omega
    unfold text_step arr_set
    rw [hb]
    simp only [Option.bind_eq_bind, Option.some_bind]
    rw [if_pos (by simp only [List.length_append, hl, List.length_replicate]; omega)]
    simp only [Int.toNat_ofNat, Option.pure_def, Option.bind_some, Option.some.injEq]
    rw [List.set_append, if_neg (by omega), hl, Nat.sub_self]
    have e1 : n + 1 - k = (n - k) + 1 := by omega
    have e2 : n + 1 - (k + 1) = n - k := by omega
    rw [e1, e2, List.replicate_succ, List.set_cons_zero, List.take_succ, List.getElem?_drop, hb]
    simp

theorem text_buf_build_eq (p : parser) (n : Int) (hn : construct_long p STR_LEN = some n)
    (h0 : 0 ≤ n) (hfit : (STR_DATA : Int) + n ≤ (p.m_buf.length : Int)) :
    text_buf_build p = some (n, (p.m_buf.drop STR_DATA).take n.toNat ++ [0]) := by
  have hl : ((p.m_buf.drop STR_DATA).take n.toNat).length = n.toNat := by
    simp only [List.length_take, List.length_drop]; omega
  have e1 : (n + 1).toNat = n.toNat + 1 := by omega
  unfold text_buf_build
  rw [hn]
  simp only [Option.bind_eq_bind, Option.some_bind]
  rw [if_neg (by omega), e1, text_loop_eq p n.toNat n.toNat le_rfl (by omega)]
  simp only [Option.some_bind]
  unfold arr_set
  rw [if_pos (by simp only [List.length_append, hl, List.length_replicate]; omega)]
  simp only [Option.some_bind, Option.pure_def, Option.some.injEq, Prod.mk.injEq, true_and]
  rw [List.set_append, if_neg (by omega), hl, Nat.sub_self]
  have e2 : n.toNat + 1 - n.toNat = 1 := by omega
  rw [e2]
  rfl

/-- C7. Text decode: for a frame with type code 0x11 whose length field n satisfies
0 ≤ n and 0x10 + n ≤ frame length - 4, the buffer built by `processText` has exactly n+1
bytes, its first n bytes are the frame bytes at offsets 0x10 .. 0x10+n-1 in order (all of
them before the footer), and its last byte is 0. `processText` returns with that buffer
whenever text verbosity is off or n > 0. -/
theorem C7_text_decode (p : parser) (n : Int) (htype : construct_int p TYPE = some 0x11)
    (hn : construct_long p 0x0c = some n) (h0 : 0 ≤ n)
    (hfit : 0x10 + n ≤ (p.m_buf.length : Int) - 4) :
    ∃ text_buf : List byte, text_buf_build p = some (n, text_buf) ∧
      (text_buf.length : Int) = n + 1 ∧
      (∀ i : Nat, (i : Int) < n →
        text_buf[i]? = p.m_buf[0x10 + i]? ∧ 0x10 + i < p.m_buf.length - 4) ∧
      text_buf[n.toNat]? = some 0 ∧
      text_buf = (p.m_buf.drop 0x10).take n.toNat ++ [0] ∧
      (verb p VERB_TEXT = false ∨ 0 < n → processText p = some text_buf) ∧
      (verb p VERB_TEXT = false ∨ 0 < n →
        (p.m_buf.take 4 = HEADER ∧ ends_with FOOTER p.m_buf) ∨ verb p VERB_DEBUG = false →
        processMsg p = some p) := by
  have hb := text_buf_build_eq p n hn h0 (by simp only [STR_DATA]; omega)
  have hT : verb p VERB_TEXT = false ∨ 0 < n →
      processText p = some ((p.m_buf.drop 0x10).take n.toNat ++ [0]) := by
    intro hv
    unfold processText
    rw [hb]
    simp only [Option.bind_eq_bind, Option.some_bind]
    rcases hv with hv | hv
    · rw [hv]; rfl
    · cases hvt : verb p VERB_TEXT
      · rfl
      · have hg : ∃ b, arr_get ((p.m_buf.drop STR_DATA).take n.toNat ++ [0]) (n - 1) = some b := by
          have hl : ((p.m_buf.drop STR_DATA).take n.toNat).length = n.toNat := by
            simp only [List.length_take, List.length_drop, STR_DATA]; omega
          unfold arr_get
          rw [if_pos (by omega)]
          exact ⟨_, List.getElem?_eq_getElem
            (by simp only [List.length_append, hl, List.length_singleton]; omega)⟩
        obtain ⟨b, hb2⟩ := hg
        simp only [if_true, hb2, Option.bind_eq_bind, Option.some_bind, Option.pure_def]
        rfl
  have hl : ((p.m_buf.drop STR_DATA).take n.toNat).length = n.toNat := by
    simp only [List.length_take, List.length_drop, STR_DATA]; omega
  refine ⟨_, hb, ?_, ?_, ?_, rfl, hT, ?_⟩
  · simp only [List.length_append, hl, List.length_singleton]; omega
  · intro i hi
    refine ⟨?_, by omega⟩
    rw [List.getElem?_append_left (by omega), List.getElem?_take_of_lt (by omega),
      List.getElem?_drop]
    rfl
  · rw [List.getElem?_append_right (by omega), hl, Nat.sub_self]
    rfl
  · intro hv hm
    have hd := processMsg_dispatch p 0x11
      (by
        rcases hm with h | h
        · exact Or.inl ((is_header_three p).mpr h.1)
        · exact Or.inr h)
      (by
        rcases hm with h | h
        · exact Or.inl ((is_footer_last p).mpr h.2)
        · exact Or.inr h)
      (by omega) htype
    rw [hd, hT hv]
    simp [POSITION, TEXT]

theorem C7_text_decode_witness :
    ∃ text_buf : List byte,
      text_buf_build { parser0 with m_buf := hello_frame, m_verbose := VERB_TEXT }
        = some (5, text_buf) ∧
      (text_buf.length : Int) = 5 + 1 ∧
      (∀ i : Nat, (i : Int) < 5 →
        text_buf[i]? = ({ parser0 with m_buf := hello_frame, m_verbose := VERB_TEXT } :
            parser).m_buf[0x10 + i]? ∧
        0x10 + i < ({ parser0 with m_buf := hello_frame, m_verbose := VERB_TEXT } :
            parser).m_buf.length - 4) ∧
      text_buf[(5 : Int).toNat]? = some 0 ∧
      text_buf = (({ parser0 with m_buf := hello_frame, m_verbose := VERB_TEXT } :
            parser).m_buf.drop 0x10).take (5 : Int).toNat ++ [0] ∧
      (verb { parser0 with m_buf := hello_frame, m_verbose := VERB_TEXT } VERB_TEXT = false ∨
          (0 : Int) < 5 →
        processText { parser0 with m_buf := hello_frame, m_verbose := VERB_TEXT }
          = some text_buf) ∧
      (verb { parser0 with m_buf := hello_frame, m_verbose := VERB_TEXT } VERB_TEXT = false ∨
          (0 : Int) < 5 →
        (({ parser0 with m_buf := hello_frame, m_verbose := VERB_TEXT } : parser).m_buf.take 4
            = HEADER ∧
          ends_with FOOTER ({ parser0 with m_buf := hello_frame, m_verbose := VERB_TEXT } :
            parser).m_buf) ∨
          verb { parser0 with m_buf := hello_frame, m_verbose := VERB_TEXT } VERB_DEBUG = false →
        processMsg { parser0 with m_buf := hello_frame, m_verbose := VERB_TEXT }
          = some { parser0 with m_buf := hello_frame, m_verbose := VERB_TEXT }) :=
  C7_text_decode { parser0 with m_buf := hello_frame, m_verbose := VERB_TEXT } 5
    (by decide) (by decide) (by decide) (by decide)

/-- The example of the specification: length 5 with bytes h e l l o yields "hello"
followed by the null byte. -/
theorem hello_frame_text :
    processText { parser0 with m_buf := hello_frame, m_verbose := VERB_TEXT }
      = some [0x68, 0x65, 0x6c, 0x6c, 0x6f, 0x00] := by
  decide

/-! ### Odometry and the header check -/

theorem or_eq_zero_left (a b : Nat) (h : a ||| b = 0) : a = 0 := by
  apply Nat.eq_of_testBit_eq
  intro i
  have := congrArg (fun n => Nat.testBit n i) h
  simp only [Nat.testBit_or, Nat.zero_testBit, Bool.or_eq_false_iff] at this
  rw [this.1, Nat.zero_testBit]

theorem verb_or_left (p : parser) (a b : Nat) (h : verb p a = true) : verb p (a ||| b) = true := by
  unfold verb at *
  simp only [bne_iff_ne, ne_eq] at *
  intro hc
  rw [Nat.and_or_distrib_left] at hc
  exact h (or_eq_zero_left _ _ hc)

/-- With `VERB_ODOM` set `processOdom` overwrites both odometry records from the four
fields at 0x0c, 0x10, 0x14 and 0x16. -/
theorem processOdom_eq (p : parser) (hv : verb p VERB_ODOM = true) (hlen : 24 ≤ p.m_buf.length) :
    ∃ lc rc ls rs : Int,
      construct_long p 0x0c = some lc ∧ construct_long p 0x10 = some rc ∧
      construct_int p 0x14 = some ls ∧ construct_int p 0x16 = some rs ∧
      processOdom p = some { p with left := { count := lc, speed := ls * 0.001 },
                                    right := { count := rc, speed := rs * 0.001 } } := by
  obtain ⟨lc, hlc⟩ := construct_long_some p 0x0c (by omega)
  obtain ⟨rc, hrc⟩ := construct_long_some p 0x10 (by omega)
  obtain ⟨ls, hls⟩ := construct_int_some p 0x14 (by omega)
  obtain ⟨rs, hrs⟩ := construct_int_some p 0x16 (by omega)
  refine ⟨lc, rc, ls, rs, hlc, hrc, hls, hrs, ?_⟩
  unfold processOdom
  rw [verb_or_left p _ _ hv, hv, hlc, hrc, hls, hrs]
  rfl

/-- With `VERB_ODOM` clear `processOdom` writes nothing. -/
theorem processOdom_skip (p : parser) (hv : verb p VERB_ODOM = false) : processOdom p = some p := by
  unfold processOdom
  rw [hv]
  split <;> rfl

/-- In debug mode a frame that fails the header check is dropped unread. -/
theorem processMsg_header_mismatch_debug (p : parser) (hh : is_header p 3 = false)
    (hv : verb p VERB_DEBUG = true) : processMsg p = some p := by
  unfold processMsg
  rw [hh, hv]
  rfl

/-- C6, at verbosity 0 (the constructor default): the frame `odom_frame` meets every
condition of the claim and carries the counts 5 and -2, yet `processMsg` returns with
`left` and `right` still at their prior value 0: `processOdom` reads the fields only when
`VERB_ODOM` is set. -/
theorem C6_odom_skipped_without_verb_odom :
    28 ≤ odom_frame.length ∧ odom_frame.take 4 = HEADER ∧ ends_with FOOTER odom_frame ∧
    construct_int { parser0 with m_buf := odom_frame } TYPE = some 0x01 ∧
    construct_long { parser0 with m_buf := odom_frame } 0x0c = some 5 ∧
    construct_long { parser0 with m_buf := odom_frame } 0x10 = some (-2) ∧
    construct_int { parser0 with m_buf := odom_frame } 0x14 = some 1000 ∧
    construct_int { parser0 with m_buf := odom_frame } 0x16 = some (-3) ∧
    (processMsg { parser0 with m_buf := odom_frame }).map (fun q => (q.left, q.right))
      = some (⟨0, 0⟩, ⟨0, 0⟩) := by
  decide

/-- C10, with `VERB_DEBUG` clear: a frame whose first four bytes are not 01 02 03 04 is
decoded all the same. At verbosity `VERB_ODOM`, with prior counts 0, the frame
`bad_odom_frame` fails the header check and still overwrites the counts with 5 and -2:
the header check of `processMsg` stops the decode only when `VERB_DEBUG` is set. -/
theorem C10_header_mismatch_decoded_without_debug :
    bad_odom_frame.take 4 ≠ HEADER ∧
    is_header { parser0 with m_buf := bad_odom_frame, m_verbose := VERB_ODOM } 3 = false ∧
    (parser0.left.count, parser0.right.count) = (0, 0) ∧
    (processMsg { parser0 with m_buf := bad_odom_frame, m_verbose := VERB_ODOM }).map
        (fun q => (q.left.count, q.right.count)) = some (5, -2) := by
  decide

set_option maxRecDepth 100000 in
/-- At verbosity 0 the frame `bad_laser_frame` fails the header check and still overwrites
table entries 0..89. -/
theorem bad_laser_frame_decoded :
    bad_laser_frame.take 4 ≠ HEADER ∧
    is_header { parser0 with m_buf := bad_laser_frame } 3 = false ∧
    (processMsg { parser0 with m_buf := bad_laser_frame }).map
        (fun q => (q.m_laser 0, q.m_laser 89, q.m_laser 90))
      = some (⟨257, 257, true⟩, ⟨257, 257, true⟩, ⟨0, 0, false⟩) := by
  decide

/-- What `processMsg` does with a well-formed odometry frame: with `VERB_ODOM` set both
records are overwritten from the four fields, with `VERB_ODOM` clear nothing is written. -/
theorem processMsg_odom_frame (p : parser) (hlen : 28 ≤ p.m_buf.length)
    (hhead : p.m_buf.take 4 = HEADER) (hfoot : ends_with FOOTER p.m_buf)
    (htype : construct_int p TYPE = some 0x01) :
    (verb p VERB_ODOM = true →
      ∃ lc rc ls rs : Int,
        construct_long p 0x0c = some lc ∧ construct_long p 0x10 = some rc ∧
        construct_int p 0x14 = some ls ∧ construct_int p 0x16 = some rs ∧
        processMsg p = some { p with left := { count := lc, speed := ls * 0.001 },
                                     right := { count := rc, speed := rs * 0.001 } }) ∧
    (verb p VERB_ODOM = false → processMsg p = some p) := by
  have hd := processMsg_dispatch p 0x01 (Or.inl ((is_header_three p).mpr hhead))
    (Or.inl ((is_footer_last p).mpr hfoot)) (by omega) htype
  simp only [POSITION, if_true] at hd
  constructor
  · intro hv
    obtain ⟨lc, rc, ls, rs, h1, h2, h3, h4, h5⟩ := processOdom_eq p hv (by omega)
    exact ⟨lc, rc, ls, rs, h1, h2, h3, h4, by rw [hd, h5]⟩
  · intro hv
    rw [hd, processOdom_skip p hv]

/-! ### Streams -/

theorem feed_snoc (t : List byte) (c : byte) (p : parser) :
    feed p (t ++ [c]) =
      match (feed p t).2 with
      | none => feed p t
      | some q => ((feed p t).1 ++ (update q c).decoded.toList, (update q c).state) := by
  induction t generalizing p with
  | nil =>
    simp only [List.nil_append, feed]
    cases (update p c).state <;> simp
  | cons a t ih =>
    simp only [List.cons_append, feed]
    cases hs : (update p a).state with
    | none => simp
    | some q =>
      simp only [List.append_eq]
      rw [ih q]
      cases h2 : (feed q t).2 <;> simp [h2]

theorem marker_at_length (M s : List byte) (k : Nat) (hM : M.length = 4) (h : marker_at M s k) :
    k + 4 ≤ s.length := by
  unfold marker_at at h
  have := congrArg List.length h
  simp only [List.length_take, List.length_drop, hM] at this
  omega

theorem marker_at_append (M s t : List byte) (k : Nat) (hk : k + 4 ≤ s.length) :
    marker_at M (s ++ t) k ↔ marker_at M s k := by
  unfold marker_at
  rw [List.drop_append_of_le_length (by omega), List.take_append_of_le_length (by simp; omega)]

theorem marker_at_drop (M s : List byte) (h k : Nat) :
    marker_at M (s.drop h) k ↔ marker_at M s (h + k) := by
  unfold marker_at
  rw [List.drop_drop]

theorem ends_with_iff_marker_at (M s : List byte) (_hM : M.length = 4) :
    ends_with M s ↔ ∃ k, k + 4 = s.length ∧ marker_at M s k := by
  constructor
  · rintro ⟨h4, h⟩
    exact ⟨s.length - 4, by omega, (marker_at_last M s h4).mpr h⟩
  · rintro ⟨k, hk, h⟩
    have e : k = s.length - 4 := by omega
    subst e
    exact ⟨by omega, (marker_at_last M s (by omega)).mp h⟩

theorem HEADER_length : HEADER.length = 4 := rfl
theorem FOOTER_length : FOOTER.length = 4 := rfl

theorem update_synced (q : parser) (t : List byte) (c : byte) (h : Nat)
    (hq : q.m_buf = t.drop h) (hs : synced t h) (hf : ¬ ends_with FOOTER (t ++ [c])) :
    ∃ h2, synced (t ++ [c]) h2 ∧
      update q c = { decoded := none, state := some { q with m_buf := (t ++ [c]).drop h2 } } := by
  obtain ⟨hle, hmax, hat⟩ := hs
  have hbuf : q.m_buf ++ [c] = (t ++ [c]).drop h := by
    rw [hq, List.drop_append_of_le_length hle]
  have hf2 : ¬ ends_with FOOTER (q.m_buf ++ [c]) := by
    intro hc
    apply hf
    rw [ends_with_iff_marker_at _ _ FOOTER_length] at hc ⊢
    obtain ⟨k, hk, hm⟩ := hc
    rw [hbuf] at hk hm
    rw [marker_at_drop] at hm
    simp only [List.length_drop, List.length_append, List.length_singleton] at hk
    exact ⟨h + k, by simp only [List.length_append, List.length_singleton]; omega, hm⟩
  by_cases hh : ends_with HEADER (q.m_buf ++ [c])
  · refine ⟨t.length - 3, ?_, ?_⟩
    · have hh2 := hh
      rw [ends_with_iff_marker_at _ _ HEADER_length] at hh2
      obtain ⟨k, hk, hm⟩ := hh2
      rw [hbuf] at hk hm
      rw [marker_at_drop] at hm
      simp only [List.length_drop, List.length_append, List.length_singleton] at hk
      have e : h + k = t.length - 3 := by omega
      rw [e] at hm
      refine ⟨by simp only [List.length_append, List.length_singleton]; omega, ?_, Or.inr hm⟩
      intro j hj
      have := marker_at_length _ _ _ HEADER_length hj
      simp only [List.length_append, List.length_singleton] at this
      omega
    · rw [update_of_header q c hh]
      have hh2 := hh
      rw [hbuf] at hh2
      obtain ⟨h4, hd⟩ := hh2
      rw [List.drop_drop] at hd
      simp only [List.length_drop, List.length_append, List.length_singleton] at hd h4
      have e : h + (t.length + 1 - h - 4) = t.length - 3 := by omega
      rw [e] at hd
      rw [hd]
  · refine ⟨h, ?_, ?_⟩
    · refine ⟨by simp only [List.length_append, List.length_singleton]; omega, ?_, ?_⟩
      · intro j hj
        by_cases hj4 : j + 4 ≤ t.length
        · exact hmax j ((marker_at_append _ _ _ _ hj4).mp hj)
        · by_contra hlt
          apply hh
          rw [ends_with_iff_marker_at _ _ HEADER_length]
          have hjl := marker_at_length _ _ _ HEADER_length hj
          simp only [List.length_append, List.length_singleton] at hjl
          refine ⟨j - h, ?_, ?_⟩
          · rw [hbuf]
            simp only [List.length_drop, List.length_append, List.length_singleton]
            omega
          · rw [hbuf, marker_at_drop]
            have e : h + (j - h) = j := by omega
            rw [e]
            exact hj
      · rcases hat with h0 | hm
        · exact Or.inl h0
        · exact Or.inr ((marker_at_append _ _ _ _
            (marker_at_length _ _ _ HEADER_length hm)).mpr hm)
    · rw [update_of_neither q c hf2 hh, hbuf]

theorem parser_buf_eta (p : parser) (b : List byte) (hp : p.m_buf = b) :
    ({ p with m_buf := b } : parser) = p := by
  cases p
  simp only at hp
  subst hp
  rfl

theorem marker_at_nil (M : List byte) (k : Nat) (hM : M.length = 4) : ¬ marker_at M [] k := by
  intro h
  have := marker_at_length M [] k hM h
  simp at this

/-- A run over bytes that contain no footer marker hands nothing to the decoder and
leaves in the buffer the bytes from the last header marker on (all bytes when there is
no header marker). -/
theorem feed_no_footer (p : parser) (hp : p.m_buf = []) (t : List byte)
    (hnf : ∀ k, ¬ marker_at FOOTER t k) :
    ∃ h, synced t h ∧ feed p t = ([], some { p with m_buf := t.drop h }) := by
  induction t using List.reverseRecOn with
  | nil =>
    refine ⟨0, ⟨le_rfl, ?_, Or.inl rfl⟩, ?_⟩
    · intro k hk
      exact absurd hk (marker_at_nil _ _ HEADER_length)
    · simp only [feed, List.drop_nil]
      rw [parser_buf_eta p [] hp]
  | append_singleton t c ih =>
    have hnf2 : ∀ k, ¬ marker_at FOOTER t k := by
      intro k hk
      exact hnf k ((marker_at_append _ _ _ _ (marker_at_length _ _ _ FOOTER_length hk)).mpr hk)
    obtain ⟨h, hs, hfeed⟩ := ih hnf2
    have hf : ¬ ends_with FOOTER (t ++ [c]) := by
      rw [ends_with_iff_marker_at _ _ FOOTER_length]
      rintro ⟨k, _, hk⟩
      exact hnf k hk
    obtain ⟨h2, hs2, hup⟩ := update_synced { p with m_buf := t.drop h } t c h rfl hs hf
    refine ⟨h2, hs2, ?_⟩
    rw [feed_snoc, hfeed]
    simp only [hup, Option.toList_none, List.append_nil]

/-- C3. Resync correctness: when the footer marker occurs in the stream exactly once, as
its final four bytes, and the header marker occurs at least once, its last occurrence
being at offset h, feeding the stream from an empty buffer hands exactly one frame to the
decoder, the bytes from offset h to the end, and hands none for any shorter initial part
of the stream (so the frame closes when the final byte is fed). -/
theorem C3_resync (p : parser) (s : List byte) (h : Nat) (hp : p.m_buf = [])
    (hfoot : ends_with FOOTER s)
    (honce : ∀ k, k < s.length → marker_at FOOTER s k → k + 4 = s.length)
    (hhead : marker_at HEADER s h)
    (hlast : ∀ k, k < s.length → marker_at HEADER s k → k ≤ h) :
    (feed p s).1 = [s.drop h] ∧ ∀ n, n < s.length → (feed p (s.take n)).1 = [] := by
  have hparts : ∀ n, n < s.length → ∀ k, ¬ marker_at FOOTER (s.take n) k := by
    intro n hn k hk
    have hkl := marker_at_length _ _ _ FOOTER_length hk
    simp only [List.length_take] at hkl
    have hk2 : marker_at FOOTER s k := by
      rw [← List.take_append_drop n s]
      exact (marker_at_append _ _ _ _ (by simp only [List.length_take]; omega)).mpr hk
    have := honce k (by omega) hk2
    omega
  constructor
  · rcases List.eq_nil_or_concat s with hnil | ⟨t, c, hs⟩
    · subst hnil
      exact absurd hhead (marker_at_nil _ _ HEADER_length)
    · rw [List.concat_eq_append] at hs
      subst hs
      have htake : (t ++ [c]).take t.length = t := by simp
      have hnf : ∀ k, ¬ marker_at FOOTER t k := by
        have := hparts t.length (by simp)
        rwa [htake] at this
      obtain ⟨h2, ⟨hle, hmax, hat⟩, hfeed⟩ := feed_no_footer p hp t hnf
      have hhl := marker_at_length _ _ _ HEADER_length hhead
      simp only [List.length_append, List.length_singleton] at hhl
      have hht : h + 4 ≤ t.length := by
        by_contra hc
        have : ends_with HEADER (t ++ [c]) := by
          rw [ends_with_iff_marker_at _ _ HEADER_length]
          exact ⟨h, by simp only [List.length_append, List.length_singleton]; omega, hhead⟩
        exact ends_with_exclusive _ hfoot this
      have hhead2 : marker_at HEADER t h := (marker_at_append _ _ _ _ hht).mp hhead
      have e : h2 = h := by
        have h1 := hmax h hhead2
        rcases hat with h0 | hm
        · omega
        · have hm2 : marker_at HEADER (t ++ [c]) h2 :=
            (marker_at_append _ _ _ _ (marker_at_length _ _ _ HEADER_length hm)).mpr hm
          have := hlast h2 (by simp only [List.length_append, List.length_singleton]; omega) hm2
          omega
      subst e
      have hbuf : t.drop h2 ++ [c] = (t ++ [c]).drop h2 := by
        rw [List.drop_append_of_le_length hle]
      have hfb : ends_with FOOTER (t.drop h2 ++ [c]) := by
        rw [ends_with_iff_marker_at _ _ FOOTER_length] at hfoot ⊢
        obtain ⟨k, hk, hm⟩ := hfoot
        simp only [List.length_append, List.length_singleton] at hk
        refine ⟨k - h2, ?_, ?_⟩
        · simp only [List.length_append, List.length_drop, List.length_singleton]; omega
        · rw [hbuf, marker_at_drop]
          have e2 : h2 + (k - h2) = k := by omega
          rw [e2]
          exact hm
      rw [feed_snoc, hfeed]
      simp only [List.nil_append]
      rw [update_of_footer _ c hfb]
      simp only [Option.toList_some, hbuf]
  · intro n hn
    obtain ⟨h2, _, hfeed⟩ := feed_no_footer p hp (s.take n) (hparts n hn)
    rw [hfeed]

theorem C3_resync_witness :
    (feed parser0 resync_stream).1 = [resync_stream.drop 7] ∧
    ∀ n, n < resync_stream.length → (feed parser0 (resync_stream.take n)).1 = [] :=
  C3_resync parser0 resync_stream 7 rfl (by decide) (by decide) (by decide) (by decide)

theorem header_only_at_start_snoc (buf : List byte) (c : byte) (hb : header_only_at_start buf)
    (hh : ¬ ends_with HEADER (buf ++ [c])) : header_only_at_start (buf ++ [c]) := by
  intro k hk
  by_cases hk4 : k + 4 ≤ buf.length
  · exact hb k ((marker_at_append _ _ _ _ hk4).mp hk)
  · exfalso
    apply hh
    rw [ends_with_iff_marker_at _ _ HEADER_length]
    have := marker_at_length _ _ _ HEADER_length hk
    simp only [List.length_append, List.length_singleton] at this
    exact ⟨k, by simp only [List.length_append, List.length_singleton]; omega, hk⟩

theorem header_only_at_start_nil : header_only_at_start [] := by
  intro k hk
  exact absurd hk (marker_at_nil _ _ HEADER_length)

theorem header_only_at_start_HEADER : header_only_at_start HEADER := by
  intro k hk
  have := marker_at_length _ _ _ HEADER_length hk
  simp only [HEADER_length] at this
  omega

theorem feed_frames (s : List byte) (p : parser) (hp : header_only_at_start p.m_buf)
    (f : List byte) (hf : f ∈ (feed p s).1) : ends_with FOOTER f ∧ header_only_at_start f := by
  induction s generalizing p with
  | nil => simp [feed] at hf
  | cons c cs ih =>
    by_cases hfo : ends_with FOOTER (p.m_buf ++ [c])
    · have hframe : ends_with FOOTER (p.m_buf ++ [c]) ∧ header_only_at_start (p.m_buf ++ [c]) :=
        ⟨hfo, header_only_at_start_snoc _ _ hp (fun hh => ends_with_exclusive _ hfo hh)⟩
      simp only [feed, update_of_footer p c hfo] at hf
      cases hm : processMsg { p with m_buf := p.m_buf ++ [c] } with
      | none =>
        simp only [hm, Option.map_none', Option.toList_some, List.mem_singleton] at hf
        rw [hf]; exact hframe
      | some q =>
        simp only [hm, Option.map_some', Option.toList_some, List.singleton_append,
          List.mem_cons] at hf
        rcases hf with hf | hf
        · rw [hf]; exact hframe
        · exact ih { q with m_buf := [] } header_only_at_start_nil hf
    · by_cases hhe : ends_with HEADER (p.m_buf ++ [c])
      · simp only [feed, update_of_header p c hhe, Option.toList_none, List.nil_append] at hf
        exact ih { p with m_buf := HEADER } header_only_at_start_HEADER hf
      · simp only [feed, update_of_neither p c hfo hhe, Option.toList_none,
          List.nil_append] at hf
        exact ih { p with m_buf := p.m_buf ++ [c] } (header_only_at_start_snoc _ _ hp hhe) hf

/-- C4, as stated, fails: fed from an empty buffer, the stream `bad_odom_frame` (28 bytes
starting 00 00 00 00 and ending 40 30 20 10) is handed to the decoder as one frame, and
that frame does not begin with 01 02 03 04. -/
theorem C4_frame_without_header :
    (feed parser0 bad_odom_frame).1 = [bad_odom_frame] ∧
    bad_odom_frame.take 4 ≠ HEADER ∧
    ¬ (∀ f, f ∈ (feed parser0 bad_odom_frame).1 →
        f.take 4 = HEADER ∧ ends_with FOOTER f) := by
  have h1 : (feed parser0 bad_odom_frame).1
      = [bad_odom_frame] := by decide
  refine ⟨h1, by decide, ?_⟩
  intro h
  have := (h bad_odom_frame (by rw [h1]; exact List.mem_singleton.mpr rfl)).1
  exact absurd this (by decide)

/-- C4, amended. Fed byte by byte from an empty buffer, every frame handed to
`processMsg` has at least four bytes and ends with 40 30 20 10, and the header marker
01 02 03 04 occurs in it at most at offset 0: a frame that contains a header marker
begins with it. -/
theorem C4_frames_bounded (p : parser) (s f : List byte) (hp : p.m_buf = [])
    (hf : f ∈ (feed p s).1) :
    4 ≤ f.length ∧ f.drop (f.length - 4) = FOOTER ∧
    (∀ k, marker_at HEADER f k → k = 0 ∧ f.take 4 = HEADER) := by
  have h := feed_frames s p (by rw [hp]; exact header_only_at_start_nil) f hf
  refine ⟨h.1.1, h.1.2, ?_⟩
  intro k hk
  have h0 := h.2 k hk
  subst h0
  refine ⟨rfl, ?_⟩
  unfold marker_at at hk
  simpa using hk

theorem C4_frames_bounded_witness :
    4 ≤ hello_frame.length ∧ hello_frame.drop (hello_frame.length - 4) = FOOTER ∧
    (∀ k, marker_at HEADER hello_frame k → k = 0 ∧ hello_frame.take 4 = HEADER) :=
  C4_frames_bounded parser0 two_frame_stream hello_frame rfl
    (by decide)

/-! ### One step of the synchronizer on a short buffer -/

/-- C13. With fewer than 3 bytes in the buffer, `update` finds neither marker (both
tests are false for want of four bytes), invokes no decode and returns the same parser
with the buffer equal to B followed by b. -/
theorem C13_short_buffer (p : parser) (B : List byte) (b : byte) (hB : p.m_buf = B)
    (hlen : B.length < 3) :
    is_footer { p with m_buf := B ++ [b] } (((B ++ [b]).length : Int) - 1) = false ∧
    is_header { p with m_buf := B ++ [b] } (((B ++ [b]).length : Int) - 1) = false ∧
    (update p b).decoded = none ∧
    (update p b).state = some { p with m_buf := B ++ [b] } := by
  subst hB
  have hl : (p.m_buf ++ [b]).length < 4 := by
    simp only [List.length_append, List.length_singleton]; omega
  have hf : ¬ ends_with FOOTER (p.m_buf ++ [b]) := fun h => by have := h.1; omega
  have hh : ¬ ends_with HEADER (p.m_buf ++ [b]) := fun h => by have := h.1; omega
  refine ⟨?_, ?_, ?_, ?_⟩
  · rw [Bool.eq_false_iff]
    exact fun h => hf ((is_footer_last { p with m_buf := p.m_buf ++ [b] }).mp h)
  · rw [Bool.eq_false_iff]
    exact fun h => hh ((is_header_last { p with m_buf := p.m_buf ++ [b] }).mp h)
  · rw [update_of_neither p b hf hh]
  · rw [update_of_neither p b hf hh]

theorem C13_short_buffer_witness :
    is_footer { ({ parser0 with m_buf := [0x30, 0x20] } : parser) with
        m_buf := [0x30, 0x20] ++ [0x10] } ((([0x30, 0x20] ++ [0x10] : List byte).length : Int) - 1)
      = false ∧
    is_header { ({ parser0 with m_buf := [0x30, 0x20] } : parser) with
        m_buf := [0x30, 0x20] ++ [0x10] } ((([0x30, 0x20] ++ [0x10] : List byte).length : Int) - 1)
      = false ∧
    (update { parser0 with m_buf := [0x30, 0x20] } 0x10).decoded = none ∧
    (update { parser0 with m_buf := [0x30, 0x20] } 0x10).state
      = some { ({ parser0 with m_buf := [0x30, 0x20] } : parser) with
          m_buf := [0x30, 0x20] ++ [0x10] } :=
  C13_short_buffer { parser0 with m_buf := [0x30, 0x20] } [0x30, 0x20] 0x10 rfl (by decide)

/-- C16. A frame of at least 12 bytes that begins with the header marker and whose type
code is none of 0x01, 0x05, 0x11 is accepted by `processMsg` without any access out of
bounds and leaves the whole parser, so `left`, `right` and every table entry, unchanged,
whatever the verbosity mask. -/
theorem C16_unrecognized_type (p : parser) (t : Int) (hlen : 12 ≤ p.m_buf.length)
    (hhead : p.m_buf.take 4 = HEADER) (htype : construct_int p 0x04 = some t)
    (h1 : t ≠ 0x01) (h5 : t ≠ 0x05) (h11 : t ≠ 0x11) :
    processMsg p = some p := by
  have hh : is_header p 3 = true := (is_header_three p).mpr hhead
  by_cases hf : is_footer p ((p.m_buf.length : Int) - 1) = true ∨ verb p VERB_DEBUG = false
  · rw [processMsg_dispatch p t (Or.inl hh) hf hlen htype]
    simp [POSITION, TEXT, LASER, h1, h5, h11]
  · have hf1 : is_footer p ((p.m_buf.length : Int) - 1) = false := by
      cases h : is_footer p ((p.m_buf.length : Int) - 1)
      · rfl
      · exact absurd (Or.inl h) hf
    have hv : verb p VERB_DEBUG = true := by
      cases h : verb p VERB_DEBUG
      · exact absurd (Or.inr h) hf
      · rfl
    unfold processMsg
    rw [hh, hf1, hv]
    rfl

theorem C16_unrecognized_type_witness :
    processMsg { parser0 with m_buf := unknown_type_frame, m_verbose := VERB_DEBUG }
      = some { parser0 with m_buf := unknown_type_frame, m_verbose := VERB_DEBUG } :=
  C16_unrecognized_type { parser0 with m_buf := unknown_type_frame, m_verbose := VERB_DEBUG } 2
    (by decide) (by decide) (by decide) (by decide) (by decide) (by decide)

/-- C11, at the frame `odom_frame` with prior counts 0: decoded under mask 0 the counts
stay 0, decoded under mask `VERB_ODOM` they become 5 and -2. The two masks give
different resulting `left` and `right`. -/
theorem C11_verbosity_changes_decoding :
    (processMsg { parser0 with m_buf := odom_frame, m_verbose := 0 }).map
        (fun q => (q.left.count, q.right.count)) = some (0, 0) ∧
    (processMsg { parser0 with m_buf := odom_frame, m_verbose := VERB_ODOM }).map
        (fun q => (q.left.count, q.right.count)) = some (5, -2) ∧
    (processMsg { parser0 with m_buf := odom_frame, m_verbose := 0 }).map
        (fun q => (q.left.count, q.right.count))
      ≠ (processMsg { parser0 with m_buf := odom_frame, m_verbose := VERB_ODOM }).map
        (fun q => (q.left.count, q.right.count)) := by
  decide

/-- C20, at the text frame `empty_text_frame` (length field 0, so 0 ≤ n and
0x10 + n ≤ frame length - 4) with `VERB_TEXT` set: the one-byte text buffer is built, and
the newline test then reads `text_buf[string_length - 1]`, index -1, outside 0..n. -/
theorem C20_empty_text_reads_before_buffer :
    construct_int { parser0 with m_buf := empty_text_frame, m_verbose := VERB_TEXT } TYPE
      = some 0x11 ∧
    construct_long { parser0 with m_buf := empty_text_frame, m_verbose := VERB_TEXT } STR_LEN
      = some 0 ∧
    (0x10 : Int) + 0 ≤ (empty_text_frame.length : Int) - 4 ∧
    text_buf_build { parser0 with m_buf := empty_text_frame, m_verbose := VERB_TEXT }
      = some (0, [0x00]) ∧
    arr_get ([0x00] : List byte) ((0 : Int) - 1) = none ∧
    processText { parser0 with m_buf := empty_text_frame, m_verbose := VERB_TEXT } = none ∧
    processText { parser0 with m_buf := empty_text_frame, m_verbose := 0 } = some [0x00] := by
  decide

/-! ### Loops that leave the bounds -/

theorem foldlM_option_inv {σ : Type} (f : σ → Nat → Option σ) (I : σ → Prop)
    (hI : ∀ s i s', I s → f s i = some s' → I s') (l : List Nat) (s0 s1 : σ) (h0 : I s0)
    (h : l.foldlM f s0 = some s1) : I s1 := by
  induction l generalizing s0 with
  | nil =>
    simp only [List.foldlM_nil, Option.pure_def, Option.some.injEq] at h
    rw [← h]; exact h0
  | cons a l ih =>
    simp only [List.foldlM_cons, Option.bind_eq_bind] at h
    cases hfa : f s0 a with
    | none => rw [hfa] at h; simp at h
    | some s' =>
      rw [hfa] at h
      exact ih s' (hI s0 a s' h0 hfa) h

/-- A loop over 0..n-1 in which iteration `i0` fails from every state the loop can be
in has no result. -/
theorem foldlM_range_none {σ : Type} (f : σ → Nat → Option σ) (I : σ → Prop)
    (hI : ∀ s i s', I s → f s i = some s' → I s') (n i0 : Nat) (h : i0 < n)
    (hf : ∀ s, I s → f s i0 = none) (s0 : σ) (h0 : I s0) :
    (List.range n).foldlM f s0 = none := by
  induction n with
  | zero => omega
  | succ n ih =>
    rw [List.range_succ, List.foldlM_append]
    cases hfold : (List.range n).foldlM f s0 with
    | none => rfl
    | some s1 =>
      have hI1 : I s1 := foldlM_option_inv f I hI _ s0 s1 h0 hfold
      by_cases hlt : i0 < n
      · rw [ih hlt] at hfold
        cases hfold
      · have e : i0 = n := by omega
        subst e
        simp only [Option.bind_eq_bind, Option.some_bind, List.foldlM_cons, List.foldlM_nil,
          hf s1 hI1, Option.none_bind]

theorem construct_int_none (p : parser) (pos : Nat) (h : p.m_buf.length ≤ pos + 1) :
    construct_int p pos = none := by
  unfold construct_int
  have e1 : p.m_buf[pos + 1]? = none := List.getElem?_eq_none (by omega)
  cases p.m_buf[pos]? <;> simp [e1]

theorem construct_long_none (p : parser) (pos : Nat) (h : p.m_buf.length ≤ pos + 3) :
    construct_long p pos = none := by
  unfold construct_long
  have e3 : p.m_buf[pos + 3]? = none := List.getElem?_eq_none (by omega)
  cases p.m_buf[pos]? <;> cases p.m_buf[pos + 1]? <;> cases p.m_buf[pos + 2]? <;> simp [e3]

theorem construct_long_some_length (p : parser) (pos : Nat) (v : Int)
    (h : construct_long p pos = some v) : pos + 4 ≤ p.m_buf.length := by
  by_contra hc
  rw [construct_long_none p pos (by omega)] at h
  cases h

theorem construct_long_buf (p q : parser) (h : q.m_buf = p.m_buf) (pos : Nat) :
    construct_long q pos = construct_long p pos := by
  unfold construct_long; rw [h]

theorem laser_step_buf (index : Int) (s : parser) (i : Nat) (s' : parser)
    (h : laser_step index s i = some s') : s'.m_buf = s.m_buf := by
  unfold laser_step at h
  split at h
  · cases hx : construct_int s (LSR_DATA + 4 * i) with
    | none => rw [hx] at h; simp at h
    | some x =>
      cases hy : construct_int s (LSR_DATA + 4 * i + 2) with
      | none => rw [hx, hy] at h; simp at h
      | some y =>
        rw [hx, hy] at h
        simp only [Option.bind_eq_bind, Option.some_bind, Option.pure_def,
          Option.some.injEq] at h
        rw [← h]
  · cases h

theorem laser_step_out_of_table (index : Int) (s : parser) (i : Nat)
    (h : index + (i : Int) < 0 ∨ 360 ≤ index + (i : Int)) : laser_step index s i = none := by
  unfold laser_step
  rw [dif_neg (by omega)]

/-- When `processLaser` returns, the start index is within 0..270 and the buffer holds
the 90 points. -/
theorem processLaser_some (p q : parser) (h : processLaser p = some q) :
    ∃ index, construct_long p LSR_INDEX = some index ∧ 0 ≤ index ∧ index ≤ 270 ∧
      380 ≤ p.m_buf.length := by
  unfold processLaser at h
  cases hi : construct_long p LSR_INDEX with
  | none => rw [hi] at h; simp at h
  | some index =>
    rw [hi] at h
    simp only [Option.bind_eq_bind, Option.some_bind] at h
    have hnone : ∀ i0, i0 < 90 → (∀ s : parser, s.m_buf = p.m_buf → laser_step index s i0 = none) →
        False := by
      intro i0 hi0 hf
      have := foldlM_range_none (laser_step index) (fun s => s.m_buf = p.m_buf)
        (fun s i s' hs hstep => (laser_step_buf index s i s' hstep).trans hs) 90 i0 hi0 hf p rfl
      rw [this] at h
      cases h
    refine ⟨index, rfl, ?_, ?_, ?_⟩
    · by_contra hc
      exact hnone 0 (by omega) (fun s _ => laser_step_out_of_table index s 0 (by omega))
    · by_contra hc
      exact hnone 89 (by omega) (fun s _ => laser_step_out_of_table index s 89 (by omega))
    · by_contra hc
      refine hnone 89 (by omega) (fun s hs => ?_)
      unfold laser_step
      split
      · have hy : construct_int s (LSR_DATA + 4 * 89 + 2) = none :=
          construct_int_none s _ (by rw [hs]; simp only [LSR_DATA]; omega)
        rw [hy]
        cases construct_int s (LSR_DATA + 4 * 89) <;> rfl
      · rfl

/-! ### Decoding twice -/

theorem is_header_congr (p q : parser) (h : q.m_buf = p.m_buf) (pos : Int) :
    is_header q pos = is_header p pos := by
  unfold is_header; rw [h]

theorem is_footer_congr (p q : parser) (h : q.m_buf = p.m_buf) (pos : Int) :
    is_footer q pos = is_footer p pos := by
  unfold is_footer; rw [h]

theorem verb_congr (p q : parser) (h : q.m_verbose = p.m_verbose) (mask : Nat) :
    verb q mask = verb p mask := by
  unfold verb; rw [h]

theorem processOdom_idem (p q : parser) (h : processOdom p = some q) :
    q.m_buf = p.m_buf ∧ q.m_verbose = p.m_verbose ∧ processOdom q = some q := by
  cases hv : verb p VERB_ODOM with
  | false =>
    rw [processOdom_skip p hv, Option.some.injEq] at h
    subst h
    exact ⟨rfl, rfl, processOdom_skip p hv⟩
  | true =>
    by_cases hl : 24 ≤ p.m_buf.length
    · obtain ⟨lc, rc, ls, rs, h1, h2, h3, h4, h5⟩ := processOdom_eq p hv hl
      rw [h5, Option.some.injEq] at h
      have hb : q.m_buf = p.m_buf := by rw [← h]
      have hm : q.m_verbose = p.m_verbose := by rw [← h]
      refine ⟨hb, hm, ?_⟩
      obtain ⟨lc2, rc2, ls2, rs2, k1, k2, k3, k4, k5⟩ :=
        processOdom_eq q (by rw [verb_congr p q hm]; exact hv) (by rw [hb]; exact hl)
      rw [construct_long_buf p q hb, h1, Option.some.injEq] at k1
      rw [construct_long_buf p q hb, h2, Option.some.injEq] at k2
      rw [construct_int_buf p q hb, h3, Option.some.injEq] at k3
      rw [construct_int_buf p q hb, h4, Option.some.injEq] at k4
      rw [k5, ← k1, ← k2, ← k3, ← k4, ← h]
    · exfalso
      have hn : construct_int p 0x16 = none := construct_int_none p 0x16 (by omega)
      unfold processOdom at h
      rw [verb_or_left p _ _ hv, hv, hn] at h
      cases construct_long p 0x0c <;> cases construct_long p 0x10 <;>
        cases construct_int p 0x14 <;> simp at h

theorem laser_entry_buf (p q : parser) (h : q.m_buf = p.m_buf) (i : Nat) :
    laser_entry q i = laser_entry p i := by
  unfold laser_entry
  rw [construct_int_buf p q h, construct_int_buf p q h]

theorem processLaser_idem (p q : parser) (h : processLaser p = some q) :
    q.m_buf = p.m_buf ∧ q.m_verbose = p.m_verbose ∧ processLaser q = some q := by
  obtain ⟨index, hi, h0, h270, hl⟩ := processLaser_some p q h
  rw [processLaser_eq p index hi h0 h270 hl, Option.some.injEq] at h
  have hb : q.m_buf = p.m_buf := by rw [← h]
  have hm : q.m_verbose = p.m_verbose := by rw [← h]
  refine ⟨hb, hm, ?_⟩
  rw [processLaser_eq q index (by rw [construct_long_buf p q hb]; exact hi) h0 h270
    (by rw [hb]; exact hl)]
  have hL : laser_after q index 90 = q.m_laser := by
    funext j
    simp only [laser_after]
    rw [laser_entry_buf p q hb, ← h]
    simp only [laser_after]
    split <;> rfl
  rw [hL]

/-- What a returning `processMsg` did: it left the parser alone, or it ran
`processOdom`, or it ran `processLaser`, past the marker checks and the header reads. -/
theorem processMsg_some (p q : parser) (h : processMsg p = some q) :
    q = p ∨
    ((is_header p 3 = true ∨ verb p VERB_DEBUG = false) ∧
      (is_footer p ((p.m_buf.length : Int) - 1) = true ∨ verb p VERB_DEBUG = false) ∧
      12 ≤ p.m_buf.length ∧
      ((construct_int p TYPE = some POSITION ∧ processOdom p = some q) ∨
        (construct_int p TYPE = some LASER ∧ processLaser p = some q))) := by
  unfold processMsg at h
  split at h
  · left; simp only [Option.some.injEq] at h; exact h.symm
  · rename_i c1
    split at h
    · left; simp only [Option.some.injEq] at h; exact h.symm
    · rename_i c2
      have hh : is_header p 3 = true ∨ verb p VERB_DEBUG = false := by
        cases e1 : is_header p 3 <;> cases e2 : verb p VERB_DEBUG <;> simp [e1, e2] at c1 ⊢
      have hf : is_footer p ((p.m_buf.length : Int) - 1) = true ∨ verb p VERB_DEBUG = false := by
        cases e1 : is_footer p ((p.m_buf.length : Int) - 1) <;> cases e2 : verb p VERB_DEBUG <;>
          simp [e1, e2] at c2 ⊢
      cases hts : construct_long p TIMESTAMP with
      | none => rw [hts] at h; simp at h
      | some ts =>
        have hlen : 12 ≤ p.m_buf.length := by
          have := construct_long_some_length p TIMESTAMP ts hts
          simp only [TIMESTAMP] at this
          omega
        cases hsq : construct_int p SEQUENCE with
        | none => rw [hts, hsq] at h; simp at h
        | some sq =>
          cases hty : construct_int p TYPE with
          | none => rw [hts, hsq, hty] at h; simp at h
          | some t =>
            rw [hts, hsq, hty] at h
            simp only [Option.bind_eq_bind, Option.some_bind] at h
            by_cases t1 : t = POSITION
            · subst t1
              simp only [if_true] at h
              exact Or.inr ⟨hh, hf, hlen, Or.inl ⟨rfl, h⟩⟩
            · by_cases t2 : t = TEXT
              · subst t2
                simp only [t1, if_false, if_true] at h
                cases hpt : processText p with
                | none => rw [hpt] at h; simp at h
                | some tb =>
                  rw [hpt] at h
                  simp only [Option.map_some', Option.some.injEq] at h
                  exact Or.inl h.symm
              · by_cases t3 : t = LASER
                · subst t3
                  simp only [t1, t2, if_false, if_true] at h
                  exact Or.inr ⟨hh, hf, hlen, Or.inr ⟨rfl, h⟩⟩
                · simp only [t1, t2, t3, if_false, Option.some.injEq] at h
                  exact Or.inl h.symm

/-- C12. Decode idempotence: when `processMsg` returns on a frame (all its reads and
table writes are in range), a second `processMsg` on the same frame and mask returns as
well and leaves the parser exactly as the first left it: same `left`, `right` and laser
table. -/
theorem C12_decode_idempotent (p : parser) (h : (processMsg p).isSome = true) :
    ∃ q, processMsg p = some q ∧ q.m_buf = p.m_buf ∧ q.m_verbose = p.m_verbose ∧
      processMsg q = some q := by
  obtain ⟨q, hq⟩ := Option.isSome_iff_exists.mp h
  refine ⟨q, hq, ?_⟩
  rcases processMsg_some p q hq with he | ⟨hh, hf, hlen, hbr⟩
  · subst he
    exact ⟨rfl, rfl, hq⟩
  · have key : ∀ (t : Int), construct_int p TYPE = some t → q.m_buf = p.m_buf →
        q.m_verbose = p.m_verbose →
        processMsg q =
          if t = POSITION then processOdom q
          else if t = TEXT then (processText q).map fun _ => q
          else if t = LASER then processLaser q
          else some q := by
      intro t ht hb hv
      apply processMsg_dispatch q t
      · rw [is_header_congr p q hb, verb_congr p q hv]; exact hh
      · rw [is_footer_congr p q hb, verb_congr p q hv, hb]; exact hf
      · rw [hb]; exact hlen
      · rw [construct_int_buf p q hb]; exact ht
    rcases hbr with ⟨ht, ho⟩ | ⟨ht, hl⟩
    · obtain ⟨hb, hv, hi⟩ := processOdom_idem p q ho
      refine ⟨hb, hv, ?_⟩
      rw [key POSITION ht hb hv, if_pos rfl, hi]
    · obtain ⟨hb, hv, hi⟩ := processLaser_idem p q hl
      refine ⟨hb, hv, ?_⟩
      rw [key LASER ht hb hv, hi]
      simp [POSITION, TEXT, LASER]

set_option maxRecDepth 100000 in
theorem C12_decode_idempotent_witness :
    ∃ q, processMsg { parser0 with m_buf := laser_frame } = some q ∧
      q.m_buf = ({ parser0 with m_buf := laser_frame } : parser).m_buf ∧
      q.m_verbose = ({ parser0 with m_buf := laser_frame } : parser).m_verbose ∧
      processMsg q = some q :=
  C12_decode_idempotent { parser0 with m_buf := laser_frame } (by decide)

/-! ### Frame condition and unchecked fields -/

/-- A frame of at least 12 bytes with type code `t` is either dropped by a debug-mode
marker check, leaving the parser alone, or dispatched on `t`. -/
theorem processMsg_dropped_or_dispatched (p : parser) (t : Int) (hlen : 12 ≤ p.m_buf.length)
    (ht : construct_int p TYPE = some t) :
    processMsg p = some p ∨
    processMsg p =
      (if t = POSITION then processOdom p
       else if t = TEXT then (processText p).map fun _ => p
       else if t = LASER then processLaser p
       else some p) := by
  by_cases hh : is_header p 3 = true ∨ verb p VERB_DEBUG = false
  · by_cases hf : is_footer p ((p.m_buf.length : Int) - 1) = true ∨ verb p VERB_DEBUG = false
    · exact Or.inr (processMsg_dispatch p t hh hf hlen ht)
    · left
      have hf1 : is_footer p ((p.m_buf.length : Int) - 1) = false := by
        cases h : is_footer p ((p.m_buf.length : Int) - 1)
        · rfl
        · exact absurd (Or.inl h) hf
      have hv : verb p VERB_DEBUG = true := by
        cases h : verb p VERB_DEBUG
        · exact absurd (Or.inr h) hf
        · rfl
      unfold processMsg
      rw [hf1, hv]
      cases is_header p 3 <;> rfl
  · left
    have hh1 : is_header p 3 = false := by
      cases h : is_header p 3
      · rfl
      · exact absurd (Or.inl h) hh
    have hv : verb p VERB_DEBUG = true := by
      cases h : verb p VERB_DEBUG
      · exact absurd (Or.inr h) hh
      · rfl
    exact processMsg_header_mismatch_debug p hh1 hv

/-- C17. Laser decode frame condition: for a laser frame of at least 384 bytes with start
index within 0..270, `processLaser` returns a parser in which the 90 entries
index..index+89 hold the decoded points, every other table entry keeps its previous x, y
and valid, and `left` and `right` are unchanged. `processMsg` returns either that parser
or, when a debug-mode marker check drops the frame, the parser as it was. -/
theorem C17_laser_frame_condition (p : parser) (index : Int) (hlen : 384 ≤ p.m_buf.length)
    (htype : construct_int p TYPE = some 0x05) (hidx : construct_long p 0x10 = some index)
    (h0 : 0 ≤ index) (h270 : index ≤ 270) :
    ∃ q, processLaser p = some q ∧
      (∀ j : Fin 360, index ≤ (j.val : Int) ∧ (j.val : Int) < index + 90 →
        q.m_laser j = laser_entry p ((j.val : Int) - index).toNat) ∧
      (∀ j : Fin 360, (j.val : Int) < index ∨ index + 90 ≤ (j.val : Int) →
        q.m_laser j = p.m_laser j) ∧
      q.left = p.left ∧ q.right = p.right ∧
      ∃ q2, processMsg p = some q2 ∧ (q2 = q ∨ q2 = p) ∧
        (∀ j : Fin 360, (j.val : Int) < index ∨ index + 90 ≤ (j.val : Int) →
          q2.m_laser j = p.m_laser j) ∧
        q2.left = p.left ∧ q2.right = p.right := by
  have hL := processLaser_eq p index hidx h0 h270 (by omega)
  have hin : ∀ j : Fin 360, index ≤ (j.val : Int) ∧ (j.val : Int) < index + 90 →
      laser_after p index 90 j = laser_entry p ((j.val : Int) - index).toNat := by
    intro j hj
    simp only [laser_after]
    rw [if_pos (by constructor <;> omega)]
  have hout : ∀ j : Fin 360, (j.val : Int) < index ∨ index + 90 ≤ (j.val : Int) →
      laser_after p index 90 j = p.m_laser j := by
    intro j hj
    simp only [laser_after]
    rw [if_neg (by omega)]
  refine ⟨_, hL, hin, hout, rfl, rfl, ?_⟩
  rcases processMsg_dropped_or_dispatched p 0x05 (by omega) htype with hd | hd
  · exact ⟨p, hd, Or.inr rfl, fun _ _ => rfl, rfl, rfl⟩
  · refine ⟨_, ?_, Or.inl rfl, hout, rfl, rfl⟩
    rw [hd, hL]
    simp [POSITION, TEXT, LASER]

set_option maxRecDepth 100000 in
theorem C17_laser_frame_condition_witness :
    ∃ q, processLaser { parser0 with m_buf := laser_frame } = some q ∧
      (∀ j : Fin 360, (0 : Int) ≤ (j.val : Int) ∧ (j.val : Int) < 0 + 90 →
        q.m_laser j
          = laser_entry { parser0 with m_buf := laser_frame } ((j.val : Int) - 0).toNat) ∧
      (∀ j : Fin 360, (j.val : Int) < 0 ∨ (0 : Int) + 90 ≤ (j.val : Int) →
        q.m_laser j = ({ parser0 with m_buf := laser_frame } : parser).m_laser j) ∧
      q.left = ({ parser0 with m_buf := laser_frame } : parser).left ∧
      q.right = ({ parser0 with m_buf := laser_frame } : parser).right ∧
      ∃ q2, processMsg { parser0 with m_buf := laser_frame } = some q2 ∧
        (q2 = q ∨ q2 = { parser0 with m_buf := laser_frame }) ∧
        (∀ j : Fin 360, (j.val : Int) < 0 ∨ (0 : Int) + 90 ≤ (j.val : Int) →
          q2.m_laser j = ({ parser0 with m_buf := laser_frame } : parser).m_laser j) ∧
        q2.left = ({ parser0 with m_buf := laser_frame } : parser).left ∧
        q2.right = ({ parser0 with m_buf := laser_frame } : parser).right :=
  C17_laser_frame_condition { parser0 with m_buf := laser_frame } 0 (by decide) (by decide)
    (by decide) (by decide) (by decide)

set_option maxRecDepth 100000 in
/-- C15, as stated, fails: on the laser frame `overrun_laser_frame` (start index 271) the
first 89 iterations of the loop overwrite table entries 271..359, and iteration 89 then
addresses entry 360, outside the table. No failure is raised before the table is written
and the access outside 0..359 is performed. -/
theorem C15_laser_overrun :
    construct_int { parser0 with m_buf := overrun_laser_frame } TYPE = some 0x05 ∧
    construct_long { parser0 with m_buf := overrun_laser_frame } 0x10 = some 271 ∧
    parser0.m_laser 271 = ⟨0, 0, false⟩ ∧
    ((List.range 89).foldlM (laser_step 271) { parser0 with m_buf := overrun_laser_frame }).map
        (fun q => (q.m_laser 270, q.m_laser 271, q.m_laser 359))
      = some (⟨0, 0, false⟩, ⟨257, 257, true⟩, ⟨257, 257, true⟩) ∧
    ¬ ((271 : Int) + 89 < 360) ∧
    (laser_step 271 { parser0 with m_buf := overrun_laser_frame } 89).isSome = false ∧
    (processLaser { parser0 with m_buf := overrun_laser_frame }).isSome = false ∧
    (processMsg { parser0 with m_buf := overrun_laser_frame }).isSome = false := by
  decide

/-- C15, amended. For a laser frame whose start index is negative or greater than 270,
`processLaser` makes no bounds check and has no defined result: some iteration i in 0..89
addresses `m_laser[index + i]` outside 0..359, all earlier iterations addressing entries
inside the table. When 270 < index < 360 and the frame has at least 384 bytes, the
iterations before it have overwritten entries index..359. `processMsg` has no defined
result either, unless a debug-mode marker check drops the frame unread. -/
theorem C15_laser_unchecked (p : parser) (index : Int)
    (htype : construct_int p TYPE = some 0x05) (hidx : construct_long p 0x10 = some index)
    (hout : index < 0 ∨ 270 < index) :
    processLaser p = none ∧
    (∃ i : Nat, i < 90 ∧ (index + (i : Int) < 0 ∨ 360 ≤ index + (i : Int)) ∧
      laser_step index p i = none ∧
      ∀ j : Nat, j < i → 0 ≤ index + (j : Int) ∧ index + (j : Int) < 360) ∧
    (270 < index → index < 360 → 384 ≤ p.m_buf.length →
      (List.range (360 - index).toNat).foldlM (laser_step index) p
        = some { p with m_laser := laser_after p index (360 - index).toNat }) ∧
    (processMsg p = none ∨ processMsg p = some p) := by
  have hex : ∃ i : Nat, i < 90 ∧ (index + (i : Int) < 0 ∨ 360 ≤ index + (i : Int)) ∧
      ∀ j : Nat, j < i → 0 ≤ index + (j : Int) ∧ index + (j : Int) < 360 := by
    by_cases hneg : index < 0
    · exact ⟨0, by omega, by omega, fun j hj => by omega⟩
    · by_cases hbig : 360 ≤ index
      · exact ⟨0, by omega, by omega, fun j hj => by omega⟩
      · exact ⟨(360 - index).toNat, by omega, by omega, fun j hj => by omega⟩
  obtain ⟨i, hi, hbad, hbefore⟩ := hex
  have hnone : processLaser p = none := by
    unfold processLaser
    have e : construct_long p LSR_INDEX = some index := hidx
    rw [e]
    simp only [Option.bind_eq_bind, Option.some_bind]
    exact foldlM_range_none (laser_step index) (fun _ => True) (fun _ _ _ _ _ => trivial) 90 i hi
      (fun s _ => laser_step_out_of_table index s i hbad) p trivial
  refine ⟨hnone, ⟨i, hi, hbad, laser_step_out_of_table index p i hbad, hbefore⟩, ?_, ?_⟩
  · intro h1 h2 h3
    exact laser_loop_eq p index (360 - index).toNat (by omega) (by omega)
      (by simp only [LSR_DATA]; omega)
  · have hlen : 12 ≤ p.m_buf.length := by
      have := construct_long_some_length p 0x10 index hidx
      omega
    rcases processMsg_dropped_or_dispatched p 0x05 hlen htype with hd | hd
    · exact Or.inr hd
    · left
      rw [hd, hnone]
      simp [POSITION, TEXT, LASER]

set_option maxRecDepth 100000 in
theorem C15_laser_unchecked_witness :
    processLaser { parser0 with m_buf := overrun_laser_frame } = none ∧
    (∃ i : Nat, i < 90 ∧ ((271 : Int) + (i : Int) < 0 ∨ 360 ≤ (271 : Int) + (i : Int)) ∧
      laser_step 271 { parser0 with m_buf := overrun_laser_frame } i = none ∧
      ∀ j : Nat, j < i → 0 ≤ (271 : Int) + (j : Int) ∧ (271 : Int) + (j : Int) < 360) ∧
    ((270 : Int) < 271 → (271 : Int) < 360 →
      384 ≤ ({ parser0 with m_buf := overrun_laser_frame } : parser).m_buf.length →
      (List.range (360 - (271 : Int)).toNat).foldlM (laser_step 271)
          { parser0 with m_buf := overrun_laser_frame }
        = some { ({ parser0 with m_buf := overrun_laser_frame } : parser) with
            m_laser := laser_after { parser0 with m_buf := overrun_laser_frame } 271
              (360 - (271 : Int)).toNat }) ∧
    (processMsg { parser0 with m_buf := overrun_laser_frame } = none ∨
      processMsg { parser0 with m_buf := overrun_laser_frame }
        = some { parser0 with m_buf := overrun_laser_frame }) :=
  C15_laser_unchecked { parser0 with m_buf := overrun_laser_frame } 271 (by decide) (by decide)
    (by decide)

theorem text_step_out_of_frame (p : parser) (tb : List byte) (i : Nat)
    (h : p.m_buf.length ≤ STR_DATA + i) : text_step p tb i = none := by
  unfold text_step
  rw [List.getElem?_eq_none h]
  rfl

theorem text_buf_build_none (p : parser) (n : Int) (hn : construct_long p STR_LEN = some n)
    (hbad : n < 0 ∨ (p.m_buf.length : Int) < (STR_DATA : Int) + n) : text_buf_build p = none := by
  have hlen := construct_long_some_length p STR_LEN n hn
  simp only [STR_LEN, STR_DATA] at hlen hbad
  unfold text_buf_build
  rw [hn]
  simp only [Option.bind_eq_bind, Option.some_bind]
  by_cases h1 : n + 1 < 0
  · rw [if_pos h1]
  · rw [if_neg h1]
    by_cases h0 : n < 0
    · have e : n = -1 := by omega
      subst e
      rfl
    · have hfold : (List.range n.toNat).foldlM (text_step p)
          (List.replicate (n + 1).toNat (0 : byte)) = none :=
        foldlM_range_none (text_step p) (fun _ => True) (fun _ _ _ _ _ => trivial) n.toNat
          (p.m_buf.length - 16) (by omega)
          (fun s _ => text_step_out_of_frame p s _ (by simp only [STR_DATA]; omega)) _ trivial
      rw [hfold]
      rfl

theorem processText_eq (p : parser) (n : Int) (hn : construct_long p STR_LEN = some n)
    (h0 : 0 ≤ n) (hfit : (STR_DATA : Int) + n ≤ (p.m_buf.length : Int))
    (hv : verb p VERB_TEXT = false ∨ 0 < n) :
    processText p = some ((p.m_buf.drop STR_DATA).take n.toNat ++ [0]) := by
  have hb := text_buf_build_eq p n hn h0 hfit
  unfold processText
  rw [hb]
  simp only [Option.bind_eq_bind, Option.some_bind]
  rcases hv with hv | hv
  · rw [hv]; rfl
  · cases hvt : verb p VERB_TEXT
    · rfl
    · have hg : ∃ b, arr_get ((p.m_buf.drop STR_DATA).take n.toNat ++ [0]) (n - 1) = some b := by
        have hl : ((p.m_buf.drop STR_DATA).take n.toNat).length = n.toNat := by
          simp only [List.length_take, List.length_drop]; omega
        unfold arr_get
        rw [if_pos (by omega)]
        exact ⟨_, List.getElem?_eq_getElem
          (by simp only [List.length_append, hl, List.length_singleton]; omega)⟩
      obtain ⟨b, hb2⟩ := hg
      simp only [if_true, hb2, Option.bind_eq_bind, Option.some_bind, Option.pure_def]

/-- C14, as stated, fails. On `overlong_text_frame` (length field 9 against 5 bytes
before the footer) `processText` raises nothing: it returns the text h e l l o followed
by the four footer bytes 40 30 20 10 and the null byte, and `processMsg` returns
normally. On `overrun_text_frame` (length field 10) the copy loop reads `m_buf[25]`, one
past the end of the 25-byte frame. -/
theorem C14_text_overlong :
    construct_int { parser0 with m_buf := overlong_text_frame, m_verbose := VERB_TEXT } TYPE
      = some 0x11 ∧
    construct_long { parser0 with m_buf := overlong_text_frame, m_verbose := VERB_TEXT } 0x0c
      = some 9 ∧
    (overlong_text_frame.length : Int) - 20 < 9 ∧
    processText { parser0 with m_buf := overlong_text_frame, m_verbose := VERB_TEXT }
      = some [0x68, 0x65, 0x6c, 0x6c, 0x6f, 0x40, 0x30, 0x20, 0x10, 0x00] ∧
    (processMsg { parser0 with m_buf := overlong_text_frame, m_verbose := VERB_TEXT }).isSome
      = true ∧
    construct_long { parser0 with m_buf := overrun_text_frame, m_verbose := VERB_TEXT } 0x0c
      = some 10 ∧
    overrun_text_frame.length = 25 ∧
    ((List.range 9).foldlM
        (text_step { parser0 with m_buf := overrun_text_frame, m_verbose := VERB_TEXT })
        (List.replicate 11 0)).isSome = true ∧
    ({ parser0 with m_buf := overrun_text_frame, m_verbose := VERB_TEXT } :
        parser).m_buf[STR_DATA + 9]? = none ∧
    processText { parser0 with m_buf := overrun_text_frame, m_verbose := VERB_TEXT } = none := by
  decide

/-- C14, amended. For a text frame whose length field n is negative or exceeds
frame length - 20, `processText` makes no bounds check and raises no bounds error. Either
0 ≤ n ≤ frame length - 16: the n bytes from offset 0x10 are copied as they are, footer
bytes included, and `processText` returns (text verbosity off or n > 0). Or n is negative
or 0x10 + n exceeds the frame length: the allocation or an access leaves the bounds and
`processText` has no defined result. Whenever `processMsg` returns on a text frame, the
parser, so `left`, `right` and the laser table, is unchanged. -/
theorem C14_text_unchecked (p : parser) (n : Int) (htype : construct_int p TYPE = some 0x11)
    (hn : construct_long p 0x0c = some n)
    (hbad : n < 0 ∨ (p.m_buf.length : Int) - 20 < n) :
    ((0 ≤ n ∧ (p.m_buf.length : Int) - 20 < n ∧ 0x10 + n ≤ (p.m_buf.length : Int) ∧
        text_buf_build p = some (n, (p.m_buf.drop 0x10).take n.toNat ++ [0]) ∧
        (verb p VERB_TEXT = false ∨ 0 < n →
          processText p = some ((p.m_buf.drop 0x10).take n.toNat ++ [0]))) ∨
      ((n < 0 ∨ (p.m_buf.length : Int) < 0x10 + n) ∧
        text_buf_build p = none ∧ processText p = none)) ∧
    (∀ q, processMsg p = some q → q = p) := by
  constructor
  · by_cases hcase : n < 0 ∨ (p.m_buf.length : Int) < 0x10 + n
    · right
      have hb := text_buf_build_none p n hn (by simp only [STR_DATA]; exact hcase)
      refine ⟨hcase, hb, ?_⟩
      unfold processText
      rw [hb]
      rfl
    · left
      have h0 : 0 ≤ n := by omega
      have hfit : (STR_DATA : Int) + n ≤ (p.m_buf.length : Int) := by
        simp only [STR_DATA]; omega
      exact ⟨h0, by omega, by omega, text_buf_build_eq p n hn h0 hfit,
        fun hv => processText_eq p n hn h0 hfit hv⟩
  · intro q hq
    rcases processMsg_some p q hq with he | ⟨_, _, _, hbr⟩
    · exact he
    · rcases hbr with ⟨ht, _⟩ | ⟨ht, _⟩
      · rw [htype] at ht; exact absurd ht (by decide)
      · rw [htype] at ht; exact absurd ht (by decide)

theorem C14_text_unchecked_witness :
    (((0 : Int) ≤ 9 ∧
        (({ parser0 with m_buf := overlong_text_frame } : parser).m_buf.length : Int) - 20 < 9 ∧
        0x10 + 9 ≤ (({ parser0 with m_buf := overlong_text_frame } : parser).m_buf.length : Int) ∧
        text_buf_build { parser0 with m_buf := overlong_text_frame }
          = some (9, (({ parser0 with m_buf := overlong_text_frame } : parser).m_buf.drop
              0x10).take (9 : Int).toNat ++ [0]) ∧
        (verb { parser0 with m_buf := overlong_text_frame } VERB_TEXT = false ∨ (0 : Int) < 9 →
          processText { parser0 with m_buf := overlong_text_frame }
            = some ((({ parser0 with m_buf := overlong_text_frame } : parser).m_buf.drop
              0x10).take (9 : Int).toNat ++ [0]))) ∨
      (((9 : Int) < 0 ∨
          (({ parser0 with m_buf := overlong_text_frame } : parser).m_buf.length : Int)
            < 0x10 + 9) ∧
        text_buf_build { parser0 with m_buf := overlong_text_frame } = none ∧
        processText { parser0 with m_buf := overlong_text_frame } = none)) ∧
    (∀ q, processMsg { parser0 with m_buf := overlong_text_frame } = some q →
      q = { parser0 with m_buf := overlong_text_frame }) :=
  C14_text_unchecked { parser0 with m_buf := overlong_text_frame } 9 (by decide) (by decide)
    (by decide)

/-! ### Invariants of the buffer -/

theorem footer_free_snoc (buf : List byte) (c : byte) (hb : footer_free buf)
    (hf : ¬ ends_with FOOTER (buf ++ [c])) : footer_free (buf ++ [c]) := by
  intro k hk
  by_cases hk4 : k + 4 ≤ buf.length
  · exact hb k ((marker_at_append _ _ _ _ hk4).mp hk)
  · apply hf
    rw [ends_with_iff_marker_at _ _ FOOTER_length]
    have := marker_at_length _ _ _ FOOTER_length hk
    simp only [List.length_append, List.length_singleton] at this
    exact ⟨k, by simp only [List.length_append, List.length_singleton]; omega, hk⟩

theorem footer_free_nil : footer_free [] :=
  fun _ hk => marker_at_nil _ _ FOOTER_length hk

theorem footer_free_HEADER : footer_free HEADER := by
  intro k hk
  have := marker_at_length _ _ _ FOOTER_length hk
  simp only [HEADER_length] at this
  have e : k = 0 := by omega
  subst e
  exact absurd hk (by decide)

theorem update_state_invariant (p q : parser) (c : byte) (hf : footer_free p.m_buf)
    (hh : header_only_at_start p.m_buf) (hq : (update p c).state = some q) :
    footer_free q.m_buf ∧ header_only_at_start q.m_buf := by
  by_cases hfo : ends_with FOOTER (p.m_buf ++ [c])
  · rw [update_of_footer p c hfo] at hq
    simp only [Option.map_eq_some'] at hq
    obtain ⟨r, _, rfl⟩ := hq
    exact ⟨footer_free_nil, header_only_at_start_nil⟩
  · by_cases hhe : ends_with HEADER (p.m_buf ++ [c])
    · rw [update_of_header p c hhe] at hq
      simp only [Option.some.injEq] at hq
      subst hq
      exact ⟨footer_free_HEADER, header_only_at_start_HEADER⟩
    · rw [update_of_neither p c hfo hhe] at hq
      simp only [Option.some.injEq] at hq
      subst hq
      exact ⟨footer_free_snoc _ _ hf hfo, header_only_at_start_snoc _ _ hh hhe⟩

theorem feed_state_invariant (s : List byte) (p q : parser) (hf : footer_free p.m_buf)
    (hh : header_only_at_start p.m_buf) (hq : (feed p s).2 = some q) :
    footer_free q.m_buf ∧ header_only_at_start q.m_buf := by
  induction s generalizing p with
  | nil =>
    simp only [feed, Option.some.injEq] at hq
    subst hq
    exact ⟨hf, hh⟩
  | cons c cs ih =>
    simp only [feed] at hq
    cases hu : (update p c).state with
    | none => rw [hu] at hq; simp at hq
    | some r =>
      rw [hu] at hq
      obtain ⟨h1, h2⟩ := update_state_invariant p r c hf hh hu
      exact ih r h1 h2 hq

/-- C18. Buffer invariant: in every state reached by feeding a byte stream to `update`
from an empty buffer, the footer marker 40 30 20 10 occurs nowhere in the buffer (so the
buffer does not end with it) and the header marker 01 02 03 04 occurs in the buffer at
most at offset 0. -/
theorem C18_buffer_invariant (p q : parser) (s : List byte) (hp : p.m_buf = [])
    (hq : (feed p s).2 = some q) :
    (∀ k, ¬ marker_at FOOTER q.m_buf k) ∧
    ¬ (4 ≤ q.m_buf.length ∧ q.m_buf.drop (q.m_buf.length - 4) = FOOTER) ∧
    (∀ k, marker_at HEADER q.m_buf k → k = 0) := by
  obtain ⟨h1, h2⟩ := feed_state_invariant s p q (by rw [hp]; exact footer_free_nil)
    (by rw [hp]; exact header_only_at_start_nil) hq
  refine ⟨h1, ?_, h2⟩
  intro he
  have he2 : ends_with FOOTER q.m_buf := he
  rw [ends_with_iff_marker_at _ _ FOOTER_length] at he2
  obtain ⟨k, _, hk⟩ := he2
  exact h1 k hk

theorem C18_buffer_invariant_witness :
    (∀ k, ¬ marker_at FOOTER
      ({ parser0 with m_buf := [0x01, 0x02, 0x03, 0x04, 0x22] } : parser).m_buf k) ∧
    ¬ (4 ≤ ({ parser0 with m_buf := [0x01, 0x02, 0x03, 0x04, 0x22] } : parser).m_buf.length ∧
        ({ parser0 with m_buf := [0x01, 0x02, 0x03, 0x04, 0x22] } : parser).m_buf.drop
          (({ parser0 with m_buf := [0x01, 0x02, 0x03, 0x04, 0x22] } : parser).m_buf.length - 4)
          = FOOTER) ∧
    (∀ k, marker_at HEADER
      ({ parser0 with m_buf := [0x01, 0x02, 0x03, 0x04, 0x22] } : parser).m_buf k → k = 0) :=
  C18_buffer_invariant parser0 { parser0 with m_buf := [0x01, 0x02, 0x03, 0x04, 0x22] }
    frame_then_resync rfl rfl

/-! ### Frames close exactly at the footer markers -/

theorem marker_at_getElem (M s : List byte) (k d : Nat) (h : marker_at M s k) (hd : d < 4) :
    s[k + d]? = M[d]? := by
  unfold marker_at at h
  rw [← h, List.getElem?_take_of_lt hd, List.getElem?_drop]

theorem footer_no_overlap (s : List byte) (a b : Nat) (ha : marker_at FOOTER s a)
    (hb : marker_at FOOTER s b) (hab : a < b) : a + 4 ≤ b := by
  by_contra hc
  have h0 := marker_at_getElem FOOTER s b 0 hb (by omega)
  have hd := marker_at_getElem FOOTER s a (b - a) ha (by omega)
  have e : a + (b - a) = b := by omega
  rw [e] at hd
  rw [Nat.add_zero, hd] at h0
  have hcases : b - a = 1 ∨ b - a = 2 ∨ b - a = 3 := by omega
  rcases hcases with h1 | h1 | h1 <;> rw [h1] at h0 <;> exact absurd h0 (by decide)

theorem ends_with_of_drop (M s : List byte) (h : Nat) (hM : M.length = 4)
    (he : ends_with M (s.drop h)) : ends_with M s := by
  rw [ends_with_iff_marker_at _ _ hM] at he ⊢
  obtain ⟨k, hk, hm⟩ := he
  rw [marker_at_drop] at hm
  simp only [List.length_drop] at hk
  exact ⟨h + k, by omega, hm⟩

theorem ends_with_buffer_iff (t buf : List byte) (c : byte) (h : Nat) (hb : buf = t.drop h)
    (hs : buffer_start t h) :
    ends_with FOOTER (buf ++ [c]) ↔ ends_with FOOTER (t ++ [c]) := by
  obtain ⟨hle, hcase⟩ := hs
  have hbuf : buf ++ [c] = (t ++ [c]).drop h := by
    rw [hb, List.drop_append_of_le_length hle]
  rw [hbuf]
  constructor
  · exact ends_with_of_drop _ _ _ FOOTER_length
  · intro he
    rw [ends_with_iff_marker_at _ _ FOOTER_length] at he ⊢
    obtain ⟨k, hk, hm⟩ := he
    simp only [List.length_append, List.length_singleton] at hk
    have hkh : h ≤ k := by
      rcases hcase with h0 | hhd | ⟨h4, hft⟩
      · omega
      · have := marker_at_length _ _ _ HEADER_length hhd
        omega
      · by_contra hlt
        have hft2 : marker_at FOOTER (t ++ [c]) (h - 4) :=
          (marker_at_append _ _ _ _ (by omega)).mpr hft
        have := footer_no_overlap _ _ _ hft2 hm (by omega)
        omega
    refine ⟨k - h, ?_, ?_⟩
    · simp only [List.length_drop, List.length_append, List.length_singleton]; omega
    · rw [marker_at_drop]
      have e : h + (k - h) = k := by omega
      rw [e]
      exact hm

theorem update_buffer_start (q r : parser) (t : List byte) (c : byte) (h : Nat)
    (hq : q.m_buf = t.drop h) (hs : buffer_start t h) (hr : (update q c).state = some r) :
    ∃ h2, buffer_start (t ++ [c]) h2 ∧ r.m_buf = (t ++ [c]).drop h2 := by
  have hle := hs.1
  have hbuf : q.m_buf ++ [c] = (t ++ [c]).drop h := by
    rw [hq, List.drop_append_of_le_length hle]
  by_cases hfo : ends_with FOOTER (q.m_buf ++ [c])
  · rw [update_of_footer q c hfo] at hr
    simp only [Option.map_eq_some'] at hr
    obtain ⟨r0, _, rfl⟩ := hr
    have he : ends_with FOOTER (t ++ [c]) := by
      rw [hbuf] at hfo
      exact ends_with_of_drop _ _ _ FOOTER_length hfo
    have he2 := he
    rw [ends_with_iff_marker_at _ _ FOOTER_length] at he2
    obtain ⟨k, hk, hm⟩ := he2
    simp only [List.length_append, List.length_singleton] at hk
    refine ⟨t.length + 1, ⟨by simp, Or.inr (Or.inr ⟨by omega, ?_⟩)⟩, by simp⟩
    have e : t.length + 1 - 4 = k := by omega
    rw [e]
    exact hm
  · by_cases hhe : ends_with HEADER (q.m_buf ++ [c])
    · rw [update_of_header q c hhe] at hr
      simp only [Option.some.injEq] at hr
      subst hr
      have hh2 := hhe
      rw [hbuf] at hh2
      have he := ends_with_of_drop _ _ _ HEADER_length hh2
      have he2 := he
      rw [ends_with_iff_marker_at _ _ HEADER_length] at he2
      obtain ⟨k, hk, hm⟩ := he2
      obtain ⟨_, hd⟩ := he
      simp only [List.length_append, List.length_singleton] at hk hd
      have e : t.length + 1 - 4 = k := by omega
      rw [e] at hd
      exact ⟨k, ⟨by simp only [List.length_append, List.length_singleton]; omega,
        Or.inr (Or.inl hm)⟩, hd.symm⟩
    · rw [update_of_neither q c hfo hhe] at hr
      simp only [Option.some.injEq] at hr
      subst hr
      refine ⟨h, ⟨by simp only [List.length_append, List.length_singleton]; omega, ?_⟩, hbuf⟩
      rcases hs.2 with h0 | hhd | ⟨h4, hft⟩
      · exact Or.inl h0
      · exact Or.inr (Or.inl ((marker_at_append _ _ _ _
          (marker_at_length _ _ _ HEADER_length hhd)).mpr hhd))
      · exact Or.inr (Or.inr ⟨h4, (marker_at_append _ _ _ _ (by omega)).mpr hft⟩)

/-- After any run that returns, the buffer is the bytes fed so far from some offset on,
that offset being the start of the stream, of a header marker, or the end of a footer
marker. -/
theorem feed_buffer_start (t : List byte) (p q : parser) (hp : p.m_buf = [])
    (hq : (feed p t).2 = some q) : ∃ h, buffer_start t h ∧ q.m_buf = t.drop h := by
  induction t using List.reverseRecOn generalizing q with
  | nil =>
    simp only [feed, Option.some.injEq] at hq
    subst hq
    exact ⟨0, ⟨le_rfl, Or.inl rfl⟩, by rw [hp]; rfl⟩
  | append_singleton t c ih =>
    rw [feed_snoc] at hq
    cases hft : (feed p t).2 with
    | none =>
      simp only [hft] at hq
      cases hq
    | some q0 =>
      simp only [hft] at hq
      obtain ⟨h, hs, hb⟩ := ih q0 hft
      exact update_buffer_start q0 q t c h hb hs hq

theorem update_decoded_iff (p : parser) (c : byte) :
    (update p c).decoded.isSome = true ↔ ends_with FOOTER (p.m_buf ++ [c]) := by
  by_cases hfo : ends_with FOOTER (p.m_buf ++ [c])
  · rw [update_of_footer p c hfo]
    simp [hfo]
  · by_cases hhe : ends_with HEADER (p.m_buf ++ [c])
    · rw [update_of_header p c hhe]
      simp [hfo]
    · rw [update_of_neither p c hfo hhe]
      simp [hfo]

theorem ends_with_snoc_iff (t : List byte) (c : byte) :
    ends_with FOOTER (t ++ [c]) ↔ 3 ≤ t.length ∧ marker_at FOOTER (t ++ [c]) (t.length - 3) := by
  rw [ends_with_iff_marker_at _ _ FOOTER_length]
  simp only [List.length_append, List.length_singleton]
  constructor
  · rintro ⟨k, hk, hm⟩
    have e : t.length - 3 = k := by omega
    rw [e]
    exact ⟨by omega, hm⟩
  · rintro ⟨h3, hm⟩
    exact ⟨t.length - 3, by omega, hm⟩

theorem footer_count_snoc (t : List byte) (c : byte) :
    footer_count (t ++ [c])
      = footer_count t + if ends_with FOOTER (t ++ [c]) then 1 else 0 := by
  unfold footer_count
  simp only [List.length_append, List.length_singleton]
  rw [List.range_succ, List.countP_append]
  congr 1
  · apply List.countP_congr
    intro i hi
    have hi2 : i < t.length := List.mem_range.mp hi
    simp only [decide_eq_true_eq]
    constructor
    · rintro ⟨h3, hm⟩
      exact ⟨h3, (marker_at_append _ _ _ _ (by omega)).mp hm⟩
    · rintro ⟨h3, hm⟩
      exact ⟨h3, (marker_at_append _ _ _ _ (by omega)).mpr hm⟩
  · by_cases he : ends_with FOOTER (t ++ [c])
    · rw [if_pos he]
      have := (ends_with_snoc_iff t c).mp he
      simp [List.countP_cons, this]
    · rw [if_neg he]
      have : ¬ (3 ≤ t.length ∧ marker_at FOOTER (t ++ [c]) (t.length - 3)) :=
        fun h => he ((ends_with_snoc_iff t c).mpr h)
      simp [List.countP_cons, this]

theorem feed_frame_count (t : List byte) (p q : parser) (hp : p.m_buf = [])
    (hq : (feed p t).2 = some q) : (feed p t).1.length = footer_count t := by
  induction t using List.reverseRecOn generalizing q with
  | nil => rfl
  | append_singleton t c ih =>
    rw [feed_snoc] at hq ⊢
    cases hft : (feed p t).2 with
    | none =>
      simp only [hft] at hq
      cases hq
    | some q0 =>
      simp only [hft] at hq ⊢
      obtain ⟨h, hs, hb⟩ := feed_buffer_start t p q0 hp hft
      rw [List.length_append, ih q0 hft, footer_count_snoc]
      congr 1
      by_cases he : ends_with FOOTER (t ++ [c])
      · have hd := (update_decoded_iff q0 c).mpr ((ends_with_buffer_iff t _ c h hb hs).mpr he)
        rw [if_pos he]
        obtain ⟨f, hf⟩ := Option.isSome_iff_exists.mp hd
        rw [hf]
        rfl
      · have hd : (update q0 c).decoded = none := by
          cases hdd : (update q0 c).decoded with
          | none => rfl
          | some f =>
            exfalso
            apply he
            apply (ends_with_buffer_iff t _ c h hb hs).mp
            apply (update_decoded_iff q0 c).mp
            rw [hdd]
            rfl
        rw [if_neg he, hd]
        rfl

theorem feed_on_snoc (junk : parser → parser) (t : List byte) (c : byte) (p : parser) :
    feed_on junk p (t ++ [c]) =
      ((feed_on junk p t).1 ++ (update (feed_on junk p t).2 c).decoded.toList,
        update_on junk (feed_on junk p t).2 c) := by
  induction t generalizing p with
  | nil => simp [feed_on]
  | cons a t ih =>
    simp only [List.cons_append, feed_on, List.append_eq]
    rw [ih (update_on junk p a)]
    simp

/-- While the run returns, going on after every call is the same run. -/
theorem feed_on_eq_feed (junk : parser → parser) (s : List byte) (p q : parser)
    (hq : (feed p s).2 = some q) : feed_on junk p s = ((feed p s).1, q) := by
  induction s generalizing p with
  | nil =>
    simp only [feed, Option.some.injEq] at hq
    subst hq
    rfl
  | cons c cs ih =>
    simp only [feed] at hq ⊢
    cases hu : (update p c).state with
    | none => rw [hu] at hq; simp at hq
    | some r =>
      rw [hu] at hq
      have e : update_on junk p c = r := by
        unfold update_on
        rw [hu]
      simp only [feed_on, e, hu, ih r hq]

theorem update_on_buffer_start (junk : parser → parser) (q : parser) (t : List byte)
    (c : byte) (h : Nat) (hq : q.m_buf = t.drop h) (hs : buffer_start t h) :
    ∃ h2, buffer_start (t ++ [c]) h2 ∧ (update_on junk q c).m_buf = (t ++ [c]).drop h2 := by
  cases hst : (update q c).state with
  | some r =>
    have e : update_on junk q c = r := by
      unfold update_on
      rw [hst]
    rw [e]
    exact update_buffer_start q r t c h hq hs hst
  | none =>
    have e : (update_on junk q c).m_buf = [] := by
      unfold update_on
      rw [hst]
    have hfo : ends_with FOOTER (q.m_buf ++ [c]) := by
      by_contra hfo
      by_cases hhe : ends_with HEADER (q.m_buf ++ [c])
      · rw [update_of_header q c hhe] at hst
        cases hst
      · rw [update_of_neither q c hfo hhe] at hst
        cases hst
    have he : ends_with FOOTER (t ++ [c]) := (ends_with_buffer_iff t _ c h hq hs).mp hfo
    have he2 := (ends_with_snoc_iff t c).mp he
    refine ⟨t.length + 1, ⟨by simp, Or.inr (Or.inr ⟨by omega, ?_⟩)⟩, by rw [e]; simp⟩
    have e2 : t.length + 1 - 4 = t.length - 3 := by omega
    rw [e2]
    exact he2.2

/-- After any number of bytes the buffer is the bytes fed so far from some offset on,
that offset being the start of the stream, of a header marker, or the end of a footer
marker. -/
theorem feed_on_buffer_start (junk : parser → parser) (t : List byte) (p : parser)
    (hp : p.m_buf = []) :
    ∃ h, buffer_start t h ∧ (feed_on junk p t).2.m_buf = t.drop h := by
  induction t using List.reverseRecOn with
  | nil => exact ⟨0, ⟨le_rfl, Or.inl rfl⟩, by simp only [feed_on, List.drop_nil]; exact hp⟩
  | append_singleton t c ih =>
    obtain ⟨h, hs, hb⟩ := ih
    rw [feed_on_snoc]
    exact update_on_buffer_start junk _ t c h hb hs

theorem feed_on_frame_count (junk : parser → parser) (t : List byte) (p : parser)
    (hp : p.m_buf = []) : (feed_on junk p t).1.length = footer_count t := by
  induction t using List.reverseRecOn with
  | nil => rfl
  | append_singleton t c ih =>
    obtain ⟨h, hs, hb⟩ := feed_on_buffer_start junk t p hp
    rw [feed_on_snoc, List.length_append, ih, footer_count_snoc]
    congr 1
    by_cases he : ends_with FOOTER (t ++ [c])
    · have hd := (update_decoded_iff (feed_on junk p t).2 c).mpr
        ((ends_with_buffer_iff t _ c h hb hs).mpr he)
      rw [if_pos he]
      obtain ⟨f, hf⟩ := Option.isSome_iff_exists.mp hd
      rw [hf]
      rfl
    · have hd : (update (feed_on junk p t).2 c).decoded = none := by
        cases hdd : (update (feed_on junk p t).2 c).decoded with
        | none => rfl
        | some f =>
          exfalso
          apply he
          apply (ends_with_buffer_iff t _ c h hb hs).mp
          apply (update_decoded_iff (feed_on junk p t).2 c).mp
          rw [hdd]
          rfl
      rw [if_neg he, hd]
      rfl

/-- C19. Frames close exactly at footer occurrences. Feed any stream s from an empty
buffer, the caller going on after every `update`, whatever a decode that left its
bounds did to the sensor fields (`junk`). At every position i the buffer is the bytes fed
so far from some offset on, feeding byte i hands a frame to the decoder if and only if
i ≥ 3 and bytes i-3..i of s are 40 30 20 10, the frame being the buffer followed by that
byte. Hence the number of frames handed to the decoder is the number of positions at
which a footer marker ends, wherever header markers and earlier frame boundaries fall. -/
theorem C19_frames_at_footers (junk : parser → parser) (p : parser) (s : List byte)
    (hp : p.m_buf = []) :
    (∀ (i : Nat) (hi : i < s.length),
      (∃ h, h ≤ i ∧ (feed_on junk p (s.take i)).2.m_buf = (s.take i).drop h) ∧
      ((update (feed_on junk p (s.take i)).2 (s.get ⟨i, hi⟩)).decoded.isSome = true ↔
        3 ≤ i ∧ marker_at FOOTER s (i - 3)) ∧
      (∀ f, (update (feed_on junk p (s.take i)).2 (s.get ⟨i, hi⟩)).decoded = some f →
        f = (feed_on junk p (s.take i)).2.m_buf ++ [s.get ⟨i, hi⟩])) ∧
    (feed_on junk p s).1.length = footer_count s ∧
    (∀ q, (feed p s).2 = some q → (feed p s).1 = (feed_on junk p s).1) := by
  refine ⟨?_, feed_on_frame_count junk s p hp, ?_⟩
  · intro i hi
    obtain ⟨h, hs, hb⟩ := feed_on_buffer_start junk (s.take i) p hp
    have hlen : (s.take i).length = i := by
      simp only [List.length_take]; omega
    refine ⟨⟨h, by have := hs.1; omega, hb⟩, ?_, ?_⟩
    · rw [update_decoded_iff, ends_with_buffer_iff (s.take i) _ _ h hb hs, ends_with_snoc_iff,
        hlen]
      have hsplit : s.take i ++ [s.get ⟨i, hi⟩] = s.take (i + 1) := by
        rw [List.take_succ, List.getElem?_eq_getElem hi]
        rfl
      rw [hsplit]
      have hm : ∀ h3 : 3 ≤ i,
          (marker_at FOOTER (s.take (i + 1)) (i - 3) ↔ marker_at FOOTER s (i - 3)) := by
        intro h3
        have := marker_at_append FOOTER (s.take (i + 1)) (s.drop (i + 1)) (i - 3)
          (by simp only [List.length_take]; omega)
        rw [List.take_append_drop] at this
        exact this.symm
      constructor
      · rintro ⟨h3, hx⟩
        exact ⟨h3, (hm h3).mp hx⟩
      · rintro ⟨h3, hx⟩
        exact ⟨h3, (hm h3).mpr hx⟩
    · intro f hf
      have hd : (update (feed_on junk p (s.take i)).2 (s.get ⟨i, hi⟩)).decoded.isSome = true := by
        rw [hf]; rfl
      have hfo := (update_decoded_iff _ _).mp hd
      rw [update_of_footer _ _ hfo] at hf
      simp only [Option.some.injEq] at hf
      exact hf.symm
  · intro q hq
    rw [feed_on_eq_feed junk s p q hq]

theorem C19_frames_at_footers_witness :
    (∀ (i : Nat) (hi : i < footer_then_frame.length),
      (∃ h, h ≤ i ∧ (feed_on (fun r => r) parser0 (footer_then_frame.take i)).2.m_buf
          = (footer_then_frame.take i).drop h) ∧
      ((update (feed_on (fun r => r) parser0 (footer_then_frame.take i)).2
          (footer_then_frame.get ⟨i, hi⟩)).decoded.isSome = true ↔
        3 ≤ i ∧ marker_at FOOTER footer_then_frame (i - 3)) ∧
      (∀ f, (update (feed_on (fun r => r) parser0 (footer_then_frame.take i)).2
          (footer_then_frame.get ⟨i, hi⟩)).decoded = some f →
        f = (feed_on (fun r => r) parser0 (footer_then_frame.take i)).2.m_buf
          ++ [footer_then_frame.get ⟨i, hi⟩])) ∧
    (feed_on (fun r => r) parser0 footer_then_frame).1.length = footer_count footer_then_frame ∧
    (∀ q, (feed parser0 footer_then_frame).2 = some q →
      (feed parser0 footer_then_frame).1 = (feed_on (fun r => r) parser0 footer_then_frame).1) :=
  C19_frames_at_footers (fun r => r) parser0 footer_then_frame rfl

/-- On `footer_then_frame` the decode of the first, 4-byte frame reads beyond the
buffer; the run that goes on hands both frames to the decoder, one per footer marker. -/
theorem footer_then_frame_count :
    (processMsg { parser0 with m_buf := FOOTER }).isSome = false ∧
    (feed_on (fun r => r) parser0 footer_then_frame).1 = [FOOTER, odom_frame] ∧
    footer_count footer_then_frame = 2 := by
  decide

/-- On `two_frame_stream` the run returns, two frames are handed to the decoder and two
footer markers end in the stream. -/
theorem two_frame_stream_count :
    (feed parser0 two_frame_stream).2.isSome = true ∧
    (feed parser0 two_frame_stream).1 = [odom_frame, hello_frame] ∧
    footer_count two_frame_stream = 2 := by
  decide

end XV11
